import Mathlib

/-!
# API token authentication and per-identity rate limiting

A shallow embedding of `web/service/api_user.go` and `web/middleware/api_auth.go`.

* Go strings are byte sequences: `GoString := List Nat`, one entry per byte.
* Go `int` is the 64-bit `int`, held as `Int`. The one sum of the embedded code that can
  leave the 64-bit range, the id of the synthesized user, wraps through `wrapInt64`.
* The database table of API users is a list of rows; each query takes its fault
  (the error the driver reports, if any) as an explicit argument.
* `time.Now()` is an explicit argument, in nanoseconds since the zero `time.Time`.
* The token bucket of `golang.org/x/time/rate` (v0.14.0, the version the installer
  pins) computes in `float64`; so does the model, on finite values held as integer
  multiples of `2^-1074` and rounded to nearest, ties to even.
-/

namespace ApiHardener

/-! ## Go strings -/

/-- A Go string: its bytes. -/
abbrev GoString := List Nat

/-- Constant `utf8.RuneError`. -/
def RuneError : Nat := 0xFFFD

/-- Constant `utf8.RuneSelf`: bytes below it are single-byte runes. -/
def RuneSelf : Nat := 0x80

/-- Table `utf8.first` for the lead bytes of multi-byte sequences: the sequence
length and the accepted range of the second byte. Every other byte is either
ASCII or invalid and yields `none`. -/
def first (b : Nat) : Option (Nat × Nat × Nat) :=
  if 0xC2 ≤ b ∧ b ≤ 0xDF then some (2, 0x80, 0xBF)
  else if b = 0xE0 then some (3, 0xA0, 0xBF)
  else if 0xE1 ≤ b ∧ b ≤ 0xEC then some (3, 0x80, 0xBF)
  else if b = 0xED then some (3, 0x80, 0x9F)
  else if 0xEE ≤ b ∧ b ≤ 0xEF then some (3, 0x80, 0xBF)
  else if b = 0xF0 then some (4, 0x90, 0xBF)
  else if 0xF1 ≤ b ∧ b ≤ 0xF3 then some (4, 0x80, 0xBF)
  else if b = 0xF4 then some (4, 0x80, 0x8F)
  else none

/-- Function `utf8.DecodeRuneInString`: the first rune of `s` and its width in bytes.
The masks and shifts of the Go code are written as `%` and `*`. -/
def DecodeRuneInString (s : GoString) : Nat × Nat :=
  match s with
  | [] => (RuneError, 0)
  | s0 :: t =>
    if s0 < RuneSelf then (s0, 1)
    else
      match first s0 with
      | none => (RuneError, 1)
      | some (sz, lo, hi) =>
        if t.length + 1 < sz then (RuneError, 1)
        else
          let s1 := t.getD 0 0
          if s1 < lo ∨ hi < s1 then (RuneError, 1)
          else if sz ≤ 2 then (s0 % 32 * 64 + s1 % 64, 2)
          else
            let s2 := t.getD 1 0
            if s2 < 0x80 ∨ 0xBF < s2 then (RuneError, 1)
            else if sz ≤ 3 then (s0 % 16 * 4096 + s1 % 64 * 64 + s2 % 64, 3)
            else
              let s3 := t.getD 2 0
              if s3 < 0x80 ∨ 0xBF < s3 then (RuneError, 1)
              else (s0 % 8 * 262144 + s1 % 64 * 4096 + s2 % 64 * 64 + s3 % 64, 4)

/-- Function `utf8.RuneStart`: the byte is not a continuation byte. -/
def RuneStart (b : Nat) : Bool := !(decide (0x80 ≤ b) && decide (b ≤ 0xBF))

/-- The backward search of `utf8.DecodeLastRuneInString` for the start of the last
rune, `for start--; start >= lim; start--` with `lim = max (end - 4) 0`, unrolled:
it inspects at most the bytes at `end - 2`, `end - 3`, `end - 4` and otherwise
leaves `start` at `max (lim - 1) 0`. -/
def lastRuneStart (s : GoString) : Nat :=
  let e := s.length
  if 2 ≤ e ∧ RuneStart (s.getD (e - 2) 0) = true then e - 2
  else if 3 ≤ e ∧ RuneStart (s.getD (e - 3) 0) = true then e - 3
  else if 4 ≤ e ∧ RuneStart (s.getD (e - 4) 0) = true then e - 4
  else e - 5

/-- Function `utf8.DecodeLastRuneInString`: the last rune of `s` and its width. -/
def DecodeLastRuneInString (s : GoString) : Nat × Nat :=
  let e := s.length
  if e = 0 then (RuneError, 0)
  else
    let r := s.getD (e - 1) 0
    if r < RuneSelf then (r, 1)
    else
      let start := lastRuneStart s
      let rs := DecodeRuneInString (s.drop start)
      if start + rs.2 ≠ e then (RuneError, 1) else rs

/-- Function `unicode.IsSpace`. -/
def IsSpace (r : Nat) : Bool :=
  if r ≤ 0xFF then
    decide (r = 0x09 ∨ r = 0x0A ∨ r = 0x0B ∨ r = 0x0C ∨ r = 0x0D ∨ r = 0x20 ∨ r = 0x85 ∨ r = 0xA0)
  else
    decide (r = 0x1680 ∨ (0x2000 ≤ r ∧ r ≤ 0x200A) ∨ r = 0x2028 ∨ r = 0x2029 ∨ r = 0x202F
      ∨ r = 0x205F ∨ r = 0x3000)

/-- Table `asciiSpace` of package `strings`. -/
def asciiSpace (c : Nat) : Bool :=
  decide (c = 0x09 ∨ c = 0x0A ∨ c = 0x0B ∨ c = 0x0C ∨ c = 0x0D ∨ c = 0x20)

/-- Loop of `strings.indexFunc`: the byte offset of the first rune `r` with
`f r = truth`, scanning runes forward from offset `i`; `none` is Go's `-1`.
The fuel is the number of bytes left, and every rune takes at least one. -/
def indexFuncLoop (f : Nat → Bool) (truth : Bool) : Nat → Nat → GoString → Option Nat
  | 0, _, _ => none
  | fuel + 1, i, s =>
    match s with
    | [] => none
    | _ :: _ =>
      let rs := DecodeRuneInString s
      if f rs.1 = truth then some i
      else indexFuncLoop f truth fuel (i + rs.2) (s.drop rs.2)

/-- Function `strings.indexFunc`. -/
def indexFunc (s : GoString) (f : Nat → Bool) (truth : Bool) : Option Nat :=
  indexFuncLoop f truth s.length 0 s

/-- Loop of `strings.lastIndexFunc`: scanning runes backward from offset `i`. -/
def lastIndexFuncLoop (f : Nat → Bool) (truth : Bool) (s : GoString) : Nat → Nat → Option Nat
  | 0, _ => none
  | fuel + 1, i =>
    if i = 0 then none
    else
      let rs := DecodeLastRuneInString (s.take i)
      if f rs.1 = truth then some (i - rs.2)
      else lastIndexFuncLoop f truth s fuel (i - rs.2)

/-- Function `strings.lastIndexFunc`. -/
def lastIndexFunc (s : GoString) (f : Nat → Bool) (truth : Bool) : Option Nat :=
  lastIndexFuncLoop f truth s s.length s.length

/-- Function `strings.TrimLeftFunc`. -/
def TrimLeftFunc (s : GoString) (f : Nat → Bool) : GoString :=
  match indexFunc s f false with
  | none => []
  | some i => s.drop i

/-- Function `strings.TrimRightFunc`. -/
def TrimRightFunc (s : GoString) (f : Nat → Bool) : GoString :=
  match lastIndexFunc s f false with
  | some i =>
    if RuneSelf ≤ s.getD i 0 then s.take (i + (DecodeRuneInString (s.drop i)).2)
    else s.take (i + 1)
  | none => s.take 0

/-- Function `strings.TrimFunc`. -/
def TrimFunc (s : GoString) (f : Nat → Bool) : GoString :=
  TrimRightFunc (TrimLeftFunc s f) f

/-- Number of leading bytes that are ASCII white space: the value of `start`
when the first loop of `strings.TrimSpace` stops. -/
def asciiSpaceRun : GoString → Nat
  | [] => 0
  | c :: t => if c < RuneSelf ∧ asciiSpace c = true then asciiSpaceRun t + 1 else 0

/-- Second loop of `strings.TrimSpace`, on `x = s[start:]`: drops the trailing
ASCII white space and hands over to `TrimRightFunc` at a non-ASCII byte. -/
def trimSpaceStop (x : GoString) : GoString :=
  let y := x.take (x.length - asciiSpaceRun x.reverse)
  if y ≠ [] ∧ RuneSelf ≤ y.getD (y.length - 1) 0 then TrimRightFunc y IsSpace else y

/-- Function `strings.TrimSpace`. -/
def TrimSpace (s : GoString) : GoString :=
  let start := asciiSpaceRun s
  if start < s.length ∧ RuneSelf ≤ s.getD start 0 then TrimFunc (s.drop start) IsSpace
  else trimSpaceStop (s.drop start)

/-- The bytes `e` are the UTF-8 encoding of exactly one rune, and that rune is
white space for `unicode.IsSpace`. -/
def isSpaceEnc (e : GoString) : Bool :=
  decide (e ≠ []) && decide ((DecodeRuneInString e).2 = e.length)
    && IsSpace (DecodeRuneInString e).1

/-- ASCII lower-casing of one byte. -/
def lowerByte (c : Nat) : Nat := if 0x41 ≤ c ∧ c ≤ 0x5A then c + 0x20 else c

/-- Function `strings.ToLower`, exact on ASCII-only strings. On other strings Go
also maps non-ASCII runes (rewriting invalid bytes to U+FFFD); the gate below only
tests the result for an ASCII prefix, and since no non-ASCII rune lower-cases to a
letter of `bearer` that test is the same on this byte-wise version. -/
def ToLower (s : GoString) : GoString := s.map lowerByte

/-- Function `strings.HasPrefix`. -/
def HasPrefix (s p : GoString) : Bool := decide (s.take p.length = p) && decide (p.length ≤ s.length)

/-! ## Identities and their store (`web/service/api_user.go`) -/

/-- Go `error` values that occur in the embedded code. -/
inductive GoError where
  /-- Variable `ErrInvalidAPIToken`. -/
  | ErrInvalidAPIToken
  /-- Value `errors.New("name can not be empty")`. -/
  | nameEmpty
  /-- Variable `gorm.ErrRecordNotFound`. -/
  | ErrRecordNotFound
  /-- Any other error of a collaborator (database driver, hashing, settings). -/
  | external (code : Nat)
  deriving DecidableEq, Repr

deriving instance DecidableEq for Except

/-- Row type `model.APIUser`, with the fields the service reads and writes. -/
structure APIUser where
  Id : Int
  Name : GoString
  TokenPrefix : GoString
  TokenHash : GoString
  RateLimitPerMinute : Int
  Enabled : Bool
  LastUsedAt : Option Int
  deriving DecidableEq, Repr

/-- Constant `apiTokenLength`. -/
def apiTokenLength : Nat := 48

/-- Constant `apiTokenPrefixLength`. -/
def apiTokenPrefixLength : Nat := 8

/-- The row gorm's `First` returns among the rows that satisfy `p`: the one that
comes first under `ORDER BY id`. -/
def firstWhere (p : APIUser → Bool) : List APIUser → Option APIUser
  | [] => none
  | r :: rest =>
    match firstWhere p rest with
    | none => if p r = true then some r else none
    | some m => if p r = true ∧ r.Id ≤ m.Id then some r else some m

/-- Query `db.Model(&model.APIUser{}).Where("token_prefix = ? AND enabled = ?", pfx, true).First`:
the driver's error if it reports one, `gorm.ErrRecordNotFound` when no row matches. -/
def dbFirstEnabledByPrefix (rows : List APIUser) (fault : Option GoError) (pfx : GoString) :
    Except GoError APIUser :=
  match fault with
  | some e => .error e
  | none =>
    match firstWhere (fun r => decide (r.TokenPrefix = pfx) && r.Enabled) rows with
    | none => .error GoError.ErrRecordNotFound
    | some u => .ok u

/-- Statement `db.Model(..).Where("id = ?", id).Update(..)` / `Updates(..)`: rewrites
every row with that id; matching no row is not an error. A driver fault leaves the
table as it was. -/
def dbUpdateWhereId (rows : List APIUser) (fault : Option GoError) (id : Int)
    (f : APIUser → APIUser) : Option GoError × List APIUser :=
  match fault with
  | some e => (some e, rows)
  | none => (none, rows.map (fun r => if r.Id = id then f r else r))

/-- The primary key the table assigns to the next inserted row. -/
def nextId (rows : List APIUser) : Int :=
  (rows.map (fun r => r.Id)).foldl max 0 + 1

/-- Statement `db.Create(apiUser)`: stores the row under a fresh primary key and
writes that key back into the record; a driver fault (a violated constraint
included) stores nothing. -/
def dbCreate (rows : List APIUser) (fault : Option GoError) (u : APIUser) :
    Except GoError (APIUser × List APIUser) :=
  match fault with
  | some e => .error e
  | none =>
    let u1 := { u with Id := nextId rows }
    .ok (u1, rows ++ [u1])

/-- The alphabet of `random.Seq`: digits and ASCII letters. -/
def seqAlphabet (b : Nat) : Bool :=
  decide ((48 ≤ b ∧ b ≤ 57) ∨ (65 ≤ b ∧ b ≤ 90) ∨ (97 ≤ b ∧ b ≤ 122))

/-- What `random.Seq(n)` can return: `n` bytes of its alphabet. -/
def isSeq (n : Nat) (s : GoString) : Bool :=
  decide (s.length = n) && s.all seqAlphabet

/-- Method `APIUserService.generateToken`. `seq` is what `random.Seq(apiTokenLength)`
returned and `hashFn` is `crypto.HashPasswordAsBcrypt` at this call. -/
def generateToken (seq : GoString) (hashFn : GoString → Except GoError GoString) :
    Except GoError (GoString × GoString × GoString) :=
  let token := seq
  let pfx := token.take apiTokenPrefixLength
  match hashFn token with
  | .error e => .error e
  | .ok hash => .ok (token, pfx, hash)

/-- Method `APIUserService.CreateUser`. Returns the result and the table afterwards. -/
def CreateUser (seq : GoString) (hashFn : GoString → Except GoError GoString)
    (rows : List APIUser) (fault : Option GoError) (name : GoString) (rateLimitPerMinute : Int) :
    Except GoError (APIUser × GoString) × List APIUser :=
  let name := TrimSpace name
  if name = [] then (.error GoError.nameEmpty, rows)
  else
    let rateLimitPerMinute := if rateLimitPerMinute < 0 then 0 else rateLimitPerMinute
    match generateToken seq hashFn with
    | .error e => (.error e, rows)
    | .ok (token, pfx, hash) =>
      let apiUser : APIUser :=
        { Id := 0, Name := name, TokenPrefix := pfx, TokenHash := hash,
          RateLimitPerMinute := rateLimitPerMinute, Enabled := true, LastUsedAt := none }
      match dbCreate rows fault apiUser with
      | .error e => (.error e, rows)
      | .ok (u, rows1) => (.ok (u, token), rows1)

/-- Method `APIUserService.SetEnabled`. -/
def SetEnabled (rows : List APIUser) (fault : Option GoError) (id : Int) (enabled : Bool) :
    Option GoError × List APIUser :=
  dbUpdateWhereId rows fault id (fun r => { r with Enabled := enabled })

/-- Method `APIUserService.RotateToken`. -/
def RotateToken (seq : GoString) (hashFn : GoString → Except GoError GoString)
    (rows : List APIUser) (fault : Option GoError) (id : Int) :
    Except GoError GoString × List APIUser :=
  match generateToken seq hashFn with
  | .error e => (.error e, rows)
  | .ok (token, pfx, hash) =>
    match dbUpdateWhereId rows fault id (fun r => { r with TokenPrefix := pfx, TokenHash := hash }) with
    | (some e, rows1) => (.error e, rows1)
    | (none, rows1) => (.ok token, rows1)

/-- Method `APIUserService.VerifyToken`. `check` is `crypto.CheckPasswordHash`,
`lookupFault` and `touchFault` are the faults of the two database statements and
`now` is `time.Now()`. Returns the result and the table afterwards. -/
def VerifyToken (check : GoString → GoString → Bool) (rows : List APIUser)
    (lookupFault touchFault : Option GoError) (now : Int) (token : GoString) :
    Except GoError APIUser × List APIUser :=
  let token := TrimSpace token
  if token.length < apiTokenPrefixLength then (.error GoError.ErrInvalidAPIToken, rows)
  else
    let pfx := token.take apiTokenPrefixLength
    match dbFirstEnabledByPrefix rows lookupFault pfx with
    | .error _ => (.error GoError.ErrInvalidAPIToken, rows)
    | .ok apiUser =>
      if check apiUser.TokenHash token = false then (.error GoError.ErrInvalidAPIToken, rows)
      else
        (.ok apiUser,
          (dbUpdateWhereId rows touchFault apiUser.Id (fun r => { r with LastUsedAt := some now })).2)

/-- Go's slice expression `s[:n]`; `none` is the run-time panic for a bound beyond
the length of the string. -/
def sliceTo (s : GoString) (n : Nat) : Option GoString :=
  if n ≤ s.length then some (s.take n) else none

/-- A statement that `VerifyToken` sends to the store: the lookup by prefix, or the
update of `last_used_at` of one row. -/
inductive StoreOp where
  | first (pfx : GoString)
  | touch (id : Int)
  deriving DecidableEq, Repr

/-- Method `APIUserService.VerifyToken` once more, with what `VerifyToken` above
leaves implicit: the bound check of `token[:apiTokenPrefixLength]` (`none` is the
panic), and the statements sent to the store, in the order they are sent. -/
def VerifyTokenTraced (check : GoString → GoString → Bool) (rows : List APIUser)
    (lookupFault touchFault : Option GoError) (now : Int) (token : GoString) :
    Option ((Except GoError APIUser × List APIUser) × List StoreOp) :=
  let token := TrimSpace token
  if token.length < apiTokenPrefixLength then some ((.error GoError.ErrInvalidAPIToken, rows), [])
  else
    match sliceTo token apiTokenPrefixLength with
    | none => none
    | some pfx =>
      match dbFirstEnabledByPrefix rows lookupFault pfx with
      | .error _ => some ((.error GoError.ErrInvalidAPIToken, rows), [StoreOp.first pfx])
      | .ok apiUser =>
        if check apiUser.TokenHash token = false then
          some ((.error GoError.ErrInvalidAPIToken, rows), [StoreOp.first pfx])
        else
          some ((.ok apiUser,
              (dbUpdateWhereId rows touchFault apiUser.Id
                (fun r => { r with LastUsedAt := some now })).2),
            [StoreOp.first pfx, StoreOp.touch apiUser.Id])

/-- Repeated presentations of one token: `VerifyToken` once for each entry
`(lookupFault, touchFault, now)`, each call on the table the one before left. -/
def VerifyTokenSeq (check : GoString → GoString → Bool) (token : GoString) :
    List APIUser → List (Option GoError × Option GoError × Int) →
    List (Except GoError APIUser) × List APIUser
  | rows, [] => ([], rows)
  | rows, p :: rest =>
    let r := VerifyToken check rows p.1 p.2.1 p.2.2 token
    let rs := VerifyTokenSeq check token r.2 rest
    (r.1 :: rs.1, rs.2)

/-- Method `APIUserService.EffectiveRateLimit`. `apiUser` is `none` for the nil
pointer, and `defaultLimit` is what `settingService.GetAPIDefaultRateLimit()`
returned: its value and its error. -/
def EffectiveRateLimit (defaultLimit : Int × Option GoError) (apiUser : Option APIUser) : Int :=
  match apiUser with
  | none => 0
  | some u =>
    if u.RateLimitPerMinute > 0 then u.RateLimitPerMinute
    else
      let limit := defaultLimit.1
      let err := defaultLimit.2
      if err ≠ none ∨ limit < 0 then 0 else limit


/-! ## `float64` arithmetic

Every finite `float64` is an integer multiple of `2^-1074`. A value is held as that
integer, and each operation rounds the exact result to the nearest `float64`, ties to
even, as IEEE 754 does. The sign of zero is not held, and a result beyond
`math.MaxFloat64`, which IEEE 754 rounds to infinity, stays a finite value above it:
the limiter only compares such a value with a bound, with the same outcome, and with
a limit that `rate.Every` computed no result comes near it. NaN does not arise. -/

/-- A finite `float64` value, in units of `2^-1074`. -/
abbrev F64 := Int

/-- The `float64` value 1, in units of `2^-1074`. -/
def unit64 : Nat := 2 ^ 1074

/-- Position of the highest set bit of `n`, and 0 for `n = 0`, by repeated halving;
the fuel is `n` itself. -/
def bitLog : Nat → Nat → Nat
  | 0, _ => 0
  | fuel + 1, n => if n < 2 then 0 else bitLog fuel (n / 2) + 1

/-- The `float64` nearest to the rational `a / b` (given in units of `2^-1074`), ties
to even: the result keeps 53 significant bits, and below `2^-1022` the step is one
unit. -/
def roundNat (a b : Nat) : Nat :=
  let sh := bitLog (a / b) (a / b) - 52
  let s := b * 2 ^ sh
  let q := a / s
  let r := a % s
  if 2 * r < s then q * 2 ^ sh
  else if s < 2 * r then (q + 1) * 2 ^ sh
  else if q % 2 = 0 then q * 2 ^ sh
  else (q + 1) * 2 ^ sh

/-- Rounding of a signed rational `num / den` to `float64`. -/
def roundRat (num : Int) (den : Nat) : F64 :=
  if num < 0 then -((roundNat (-num).toNat den : Nat) : Int)
  else ((roundNat num.toNat den : Nat) : Int)

/-- Conversion `float64(n)` of an integer. -/
def F64.ofInt (n : Int) : F64 := roundRat (n * unit64) 1

/-- Sum of two `float64`. -/
def F64.add (x y : F64) : F64 := roundRat (x + y) 1

/-- Difference of two `float64`. -/
def F64.sub (x y : F64) : F64 := roundRat (x - y) 1

/-- Product of two `float64`. -/
def F64.mul (x y : F64) : F64 := roundRat (x * y) unit64

/-- Quotient of two `float64`; the divisor is never 0 where the limiter divides. -/
def F64.div (x y : F64) : F64 :=
  if y < 0 then roundRat (-(x * unit64)) (-y).toNat else roundRat (x * unit64) y.toNat

/-- Conversion `int64(x)` of a `float64`: truncation toward zero. -/
def F64.toInt (x : F64) : Int := Int.tdiv x unit64

/-! ## The token bucket of `golang.org/x/time/rate` -/

/-- Type `rate.Limit`: `rate.Inf` (the constant `math.MaxFloat64`, far above every
quotient `rate.Every` computes), or a finite number of events per second. -/
inductive Limit where
  | Inf
  | finite (r : F64)
  deriving DecidableEq, Repr

/-- Constant `time.Second`, in nanoseconds. -/
def Second : Int := 1000000000

/-- Constant `time.Minute`, in nanoseconds. -/
def Minute : Int := 60 * Second

/-- Largest `time.Duration`, which is also `rate.InfDuration`. -/
def maxDuration : Int := 9223372036854775807

/-- Method `Duration.Seconds`: `float64(d / Second) + float64(d % Second) / 1e9`. -/
def seconds (d : Int) : F64 :=
  F64.add (F64.ofInt (Int.tdiv d Second))
    (F64.div (F64.ofInt (Int.tmod d Second)) (F64.ofInt 1000000000))

/-- Function `rate.Every`. -/
def Every (interval : Int) : Limit :=
  if interval ≤ 0 then Limit.Inf else Limit.finite (F64.div (F64.ofInt 1) (seconds interval))

/-- Type `rate.Limiter`: `last` is the time `tokens` was last updated. -/
structure Limiter where
  limit : Limit
  burst : Int
  tokens : F64
  last : Int
  deriving DecidableEq, Repr

/-- Function `rate.NewLimiter`: the bucket starts full (`tokens = float64(b)`) and
`last` is the zero time. -/
def NewLimiter (r : Limit) (b : Int) : Limiter :=
  { limit := r, burst := b, tokens := F64.ofInt b, last := 0 }

/-- Method `Limit.tokensFromDuration`. -/
def tokensFromDuration (limit : F64) (d : Int) : F64 :=
  if limit ≤ 0 then 0 else F64.mul (seconds d) limit

/-- Method `Limit.durationFromTokens`. -/
def durationFromTokens (limit : F64) (tokens : F64) : Int :=
  if limit ≤ 0 then maxDuration
  else
    let duration := F64.mul (F64.div tokens limit) (F64.ofInt Second)
    if duration > F64.ofInt maxDuration then maxDuration else F64.toInt duration

/-- Method `Time.Sub`: the difference, saturated to the range of `time.Duration`. -/
def timeSub (t u : Int) : Int :=
  max (-maxDuration - 1) (min maxDuration (t - u))

/-- Method `Limiter.advance` for a finite limit: the number of tokens at time `t`. -/
def advance (lim : Limiter) (limit : F64) (t : Int) : F64 :=
  let last := if t < lim.last then t else lim.last
  let elapsed := timeSub t last
  let delta := tokensFromDuration limit elapsed
  let tokens := F64.add lim.tokens delta
  if tokens > F64.ofInt lim.burst then F64.ofInt lim.burst else tokens

/-- Method `Limiter.reserveN` with `maxFutureReserve = 0`, as `AllowN` calls it:
whether the reservation is `ok`, and the limiter afterwards. -/
def reserveN (lim : Limiter) (t : Int) (n : Int) : Bool × Limiter :=
  match lim.limit with
  | Limit.Inf => (true, lim)
  | Limit.finite limit =>
    let tokens := F64.sub (advance lim limit t) (F64.ofInt n)
    let waitDuration : Int := if tokens < 0 then durationFromTokens limit (-tokens) else 0
    let ok := decide (n ≤ lim.burst) && decide (waitDuration ≤ 0)
    if ok = true then (true, { lim with last := t, tokens := tokens }) else (false, lim)

/-- Method `Limiter.Allow` at time `now`: `AllowN(time.Now(), 1)`. -/
def Limiter.Allow (lim : Limiter) (now : Int) : Bool × Limiter :=
  reserveN lim now 1

/-! ## The rate limiter registry (`web/middleware/api_auth.go`) -/

/-- Type `apiRateLimiterStore`; a key that is absent from a map is `none`. -/
structure apiRateLimiterStore where
  limiters : Int → Option Limiter
  limits : Int → Option Int

/-- Function `newAPIRateLimiterStore`. -/
def newAPIRateLimiterStore : apiRateLimiterStore :=
  { limiters := fun _ => none, limits := fun _ => none }

/-- The tail of `getLimiter`: builds the limiter for `perMinute` and stores it and
the quota under `userID`. -/
def rebuildLimiter (s : apiRateLimiterStore) (userID : Int) (perMinute : Int) :
    Limiter × apiRateLimiterStore :=
  let interval := Int.tdiv Minute perMinute
  let l := NewLimiter (Every interval) perMinute
  (l, { limiters := Function.update s.limiters userID (some l),
        limits := Function.update s.limits userID (some perMinute) })

/-- Method `apiRateLimiterStore.getLimiter`: the limiter (the one now stored under
`userID`) and the registry afterwards. `s.limits[userID]` of an absent key is `0`. -/
def getLimiter (s : apiRateLimiterStore) (userID : Int) (perMinute : Int) :
    Limiter × apiRateLimiterStore :=
  let currentLimit := (s.limits userID).getD 0
  match s.limiters userID with
  | some current =>
    if currentLimit = perMinute then (current, s) else rebuildLimiter s userID perMinute
  | none => rebuildLimiter s userID perMinute

/-- Method `apiRateLimiterStore.allow` at time `now`. The limiter is held by
pointer, so what `Allow` does to it is written back under `userID`. -/
def allow (s : apiRateLimiterStore) (now : Int) (userID : Int) (perMinute : Int) :
    Bool × apiRateLimiterStore :=
  if perMinute ≤ 0 then (true, s)
  else
    let (limiter, s1) := getLimiter s userID perMinute
    let (ok, limiter1) := limiter.Allow now
    (ok, { s1 with limiters := Function.update s1.limiters userID (some limiter1) })

/-- Consecutive calls `allow(userID, perMinute)`, one at each of the given times:
the results in order and the registry afterwards. -/
def allowSeq (s : apiRateLimiterStore) (userID : Int) (perMinute : Int) :
    List Int → List Bool × apiRateLimiterStore
  | [] => ([], s)
  | now :: rest =>
    let r := allow s now userID perMinute
    let rs := allowSeq r.2 userID perMinute rest
    (r.1 :: rs.1, rs.2)

/-! ## The auth decision gate (`web/middleware/api_auth.go`) -/

/-- What the gate reads from a `gin.Context`: the two headers and the query
parameter (each empty when absent) and `session.IsLogin(c)`. -/
structure Request where
  Authorization : GoString
  XAPIToken : GoString
  apiTokenQuery : GoString
  isLogin : Bool
  deriving DecidableEq, Repr

/-- Type `model.User`, with the fields the gate sets. -/
structure User where
  Id : Int
  Username : GoString
  deriving DecidableEq, Repr

/-- What the gate does to the `gin.Context`: either it calls `c.Next()`, having
stored these values under `apiUserContextKey` and through `session.SetContextUser`,
or it aborts with a status and a body, having stored nothing. -/
inductive Outcome where
  | next (apiUser : Option APIUser) (contextUser : Option User)
  | abort (status : Nat) (body : Option GoString)
  deriving DecidableEq, Repr

/-- Constant `http.StatusNotFound`. -/
def StatusNotFound : Nat := 404

/-- Constant `http.StatusTooManyRequests`. -/
def StatusTooManyRequests : Nat := 429

/-- Constant `apiVirtualUserIDOffset`. -/
def apiVirtualUserIDOffset : Int := 1000000

/-- The JSON body `{"error":"rate limit exceeded"}`. -/
def rateLimitBody : GoString :=
  [123, 34, 101, 114, 114, 111, 114, 34, 58, 34, 114, 97, 116, 101, 32, 108, 105, 109, 105, 116,
   32, 101, 120, 99, 101, 101, 100, 101, 100, 34, 125]

/-- The string `"bearer "`. -/
def bearerScheme : GoString := [98, 101, 97, 114, 101, 114, 32]

/-- The string `"api:"`. -/
def apiNameTag : GoString := [97, 112, 105, 58]

/-- Function `extractAPIToken`. -/
def extractAPIToken (c : Request) : GoString :=
  let auth := TrimSpace c.Authorization
  if HasPrefix (ToLower auth) bearerScheme = true then TrimSpace (auth.drop 7)
  else
    let headerToken := TrimSpace c.XAPIToken
    if headerToken ≠ [] then headerToken
    else
      let queryToken := TrimSpace c.apiTokenQuery
      queryToken

/-- The Authorization header has the Bearer form: trimmed, it begins with the
scheme `bearer ` in any letter case. -/
def isBearerForm (c : Request) : Bool :=
  HasPrefix (ToLower (TrimSpace c.Authorization)) bearerScheme

/-- The first candidate of the spec: the trimmed text after the Bearer scheme. -/
def bearerText (c : Request) : GoString :=
  TrimSpace ((TrimSpace c.Authorization).drop 7)

/-- The candidates of the spec in their priority order; one that is absent counts as
the empty string. -/
def tokenCandidates (c : Request) : List GoString :=
  [if isBearerForm c = true then bearerText c else [], TrimSpace c.XAPIToken,
    TrimSpace c.apiTokenQuery]

/-- The rule of the spec: the first candidate that is not empty, and the empty string
when there is none. -/
def firstNonEmpty : List GoString → GoString
  | [] => []
  | x :: rest => if x ≠ [] then x else firstNonEmpty rest

/-- Everything outside the request that one run of the gate reads: the results of
the two settings getters (value and error), the hash check, the faults of the two
database statements of `VerifyToken`, and the clock as `VerifyToken` and as
`limiter.Allow` read it. -/
structure Env where
  tokenOnly : Bool × Option GoError
  defaultRateLimit : Int × Option GoError
  check : GoString → GoString → Bool
  lookupFault : Option GoError
  touchFault : Option GoError
  now : Int
  allowNow : Int

/-- The state the gate works on: the registry it owns and the table of API users. -/
structure GateState where
  limiterStore : apiRateLimiterStore
  rows : List APIUser

/-- The value of a Go `int` (64 bits on the platforms the panel is built for) after
an arithmetic result `x`: signed arithmetic wraps around modulo `2^64`. -/
def wrapInt64 (x : Int) : Int := (x + 2 ^ 63) % 2 ^ 64 - 2 ^ 63

/-- The handler `NewAPIAuthMiddleware` returns. -/
def apiAuthHandler (env : Env) (st : GateState) (c : Request) : Outcome × GateState :=
  let tokenOnly := env.tokenOnly.1
  let token := extractAPIToken c
  if token = [] ∧ tokenOnly = false ∧ c.isLogin = true then (Outcome.next none none, st)
  else if token = [] then (Outcome.abort StatusNotFound none, st)
  else
    match VerifyToken env.check st.rows env.lookupFault env.touchFault env.now token with
    | (.error _, rows1) => (Outcome.abort StatusNotFound none, { st with rows := rows1 })
    | (.ok apiUser, rows1) =>
      let effectiveLimit := EffectiveRateLimit env.defaultRateLimit (some apiUser)
      let (ok, store1) := allow st.limiterStore env.allowNow apiUser.Id effectiveLimit
      if ok = false then
        (Outcome.abort StatusTooManyRequests (some rateLimitBody),
          { limiterStore := store1, rows := rows1 })
      else
        (Outcome.next (some apiUser)
            (some { Id := wrapInt64 (apiVirtualUserIDOffset + apiUser.Id), Username := apiNameTag ++ apiUser.Name }),
          { limiterStore := store1, rows := rows1 })


/-! ## Concrete data for the examples -/

/-- A stand-in for `crypto.HashPasswordAsBcrypt` in the examples: the secret behind
a marker byte. -/
def exampleHash (t : GoString) : Except GoError GoString := .ok (36 :: t)

/-- The stand-in for `crypto.CheckPasswordHash` that goes with `exampleHash`. -/
def exampleCheck (hash t : GoString) : Bool := decide (hash = 36 :: t)

/-- A 48-byte secret of lower-case letters, `abc...` . -/
def exampleToken : GoString := (List.range 48).map (fun i => 97 + i % 26)

/-- A second 48-byte secret, of upper-case letters. -/
def exampleToken2 : GoString := (List.range 48).map (fun i => 65 + i % 26)

/-- An enabled identity whose secret is `exampleToken`. -/
def exampleUser : APIUser :=
  { Id := 1, Name := [97], TokenPrefix := exampleToken.take 8, TokenHash := 36 :: exampleToken,
    RateLimitPerMinute := 3, Enabled := true, LastUsedAt := none }

/-- A third 48-byte secret: the first 8 bytes of `exampleToken`, then digits. -/
def exampleToken3 : GoString := exampleToken.take 8 ++ List.replicate 40 48

/-- A request without any token, from a logged-in session. -/
def exampleSessionRequest : Request :=
  { Authorization := [], XAPIToken := [], apiTokenQuery := [], isLogin := true }

/-- A request with the header `Authorization: " BeArEr  abc "` and the header
`X-API-Token: "zz"`. -/
def exampleBearerRequest : Request :=
  { Authorization := [32, 66, 101, 65, 114, 69, 114, 32, 32, 97, 98, 99, 32],
    XAPIToken := [122, 122], apiTokenQuery := [], isLogin := false }

/-- A request with the header `X-API-Token` set to `exampleToken`. -/
def exampleTokenRequest : Request :=
  { Authorization := [], XAPIToken := exampleToken, apiTokenQuery := [], isLogin := false }

/-- An environment in which `tokenOnly` is set and nothing fails. -/
def exampleEnv : Env :=
  { tokenOnly := (true, none), defaultRateLimit := (120, none), check := exampleCheck,
    lookupFault := none, touchFault := none, now := 7, allowNow := 7 }

/-- An environment in which reading `tokenOnly` failed: the getter returned `false`
and an error. -/
def exampleEnvSettingsError : Env :=
  { tokenOnly := (false, some (GoError.external 1)), defaultRateLimit := (120, none),
    check := exampleCheck, lookupFault := none, touchFault := none, now := 7, allowNow := 7 }

/-- A gate with a new registry and the one identity `exampleUser`. -/
def exampleState : GateState :=
  { limiterStore := newAPIRateLimiterStore, rows := [exampleUser] }

/-- A gate whose registry has seen three calls of `exampleUser` (quota 3) at the
time 7, and so has no token left for it at that time. -/
def exampleStateExhausted : GateState :=
  { limiterStore := (allowSeq newAPIRateLimiterStore 1 3 [7, 7, 7]).2, rows := [exampleUser] }

/-! # Proofs -/

/-! ## Lemmas on the store -/

theorem firstWhere_some {p : APIUser → Bool} {rows : List APIUser} {u : APIUser}
    (h : firstWhere p rows = some u) : u ∈ rows ∧ p u = true := by
  induction rows generalizing u with
  | nil => simp [firstWhere] at h
  | cons r rest ih =>
    unfold firstWhere at h
    cases hm : firstWhere p rest with
    | none =>
      rw [hm] at h
      by_cases hp : p r = true
      · simp [hp] at h
        subst h
        exact ⟨List.mem_cons_self _ _, hp⟩
      · simp [hp] at h
    | some m =>
      rw [hm] at h
      have hm2 := ih hm
      by_cases hc : p r = true ∧ r.Id ≤ m.Id
      · simp only [hc, and_self, if_true, Option.some.injEq] at h
        subst h
        exact ⟨List.mem_cons_self _ _, hc.1⟩
      · simp only [hc, if_false, Option.some.injEq] at h
        subst h
        exact ⟨List.mem_cons_of_mem _ hm2.1, hm2.2⟩

theorem firstWhere_none {p : APIUser → Bool} {rows : List APIUser} :
    firstWhere p rows = none ↔ ∀ r ∈ rows, p r = false := by
  induction rows with
  | nil => simp [firstWhere]
  | cons r rest ih =>
    rw [firstWhere]
    cases hm : firstWhere p rest with
    | none =>
      have h2 := ih.mp hm
      by_cases hp : p r = true
      · simp [hp]
      · have hp2 : p r = false := by simpa using hp
        simp only [hp2, List.mem_cons, forall_eq_or_imp, true_and]
        simp only [Bool.false_eq_true, if_false, true_iff]
        exact h2
    | some m =>
      have hne : ¬ ∀ x ∈ rest, p x = false := fun hall => by
        rw [ih.mpr hall] at hm
        cases hm
      simp only
      constructor
      · intro h
        by_cases hc : p r = true ∧ r.Id ≤ m.Id
        · rw [if_pos hc] at h; cases h
        · rw [if_neg hc] at h; cases h
      · intro h
        exact absurd (fun x hx => h x (List.mem_cons_of_mem _ hx)) hne

/-- Every result of `VerifyToken` is an identity or `ErrInvalidAPIToken`. -/
theorem VerifyToken_error {check : GoString → GoString → Bool} {rows : List APIUser}
    {lookupFault touchFault : Option GoError} {now : Int} {token : GoString} {e : GoError}
    (h : (VerifyToken check rows lookupFault touchFault now token).1 = .error e) :
    e = GoError.ErrInvalidAPIToken := by
  unfold VerifyToken at h
  simp only at h
  split at h
  · simpa using h.symm
  · split at h
    · simpa using h.symm
    · split at h
      · simpa using h.symm
      · cases h

/-- An identity that `VerifyToken` returns is an enabled row with the token's prefix
whose hash accepts the trimmed token. -/
theorem VerifyToken_ok_inv {check : GoString → GoString → Bool} {rows : List APIUser}
    {lookupFault touchFault : Option GoError} {now : Int} {token : GoString} {u : APIUser}
    (h : (VerifyToken check rows lookupFault touchFault now token).1 = .ok u) :
    u ∈ rows ∧ u.Enabled = true ∧ u.TokenPrefix = (TrimSpace token).take 8
      ∧ check u.TokenHash (TrimSpace token) = true := by
  unfold VerifyToken at h
  simp only at h
  split at h
  · cases h
  · split at h
    · cases h
    · rename_i v hv
      split at h
      · cases h
      · rename_i hc
        simp only [Except.ok.injEq] at h
        subst h
        unfold dbFirstEnabledByPrefix at hv
        split at hv
        · cases hv
        · split at hv
          · cases hv
          · rename_i w hw
            simp only [Except.ok.injEq] at hv
            subst hv
            have := firstWhere_some hw
            simp only [Bool.and_eq_true, decide_eq_true_eq] at this
            refine ⟨this.1, this.2.2, this.2.1, ?_⟩
            simpa using hc

/-- When every row with the token's prefix is disabled or fails the hash check,
`VerifyToken` is `ErrInvalidAPIToken`. -/
theorem VerifyToken_all_rejected {check : GoString → GoString → Bool} {rows : List APIUser}
    {token : GoString} (lookupFault touchFault : Option GoError) (now : Int)
    (hall : ∀ r ∈ rows, r.TokenPrefix = (TrimSpace token).take 8 →
      r.Enabled = false ∨ check r.TokenHash (TrimSpace token) = false) :
    (VerifyToken check rows lookupFault touchFault now token).1
      = .error GoError.ErrInvalidAPIToken := by
  cases hres : (VerifyToken check rows lookupFault touchFault now token).1 with
  | error e => rw [VerifyToken_error hres]
  | ok v =>
    exfalso
    obtain ⟨hm, he, hp, hc⟩ := VerifyToken_ok_inv hres
    rcases hall v hm hp with h | h
    · rw [he] at h; cases h
    · rw [hc] at h; cases h

/-- C1. Whenever `VerifyToken` returns an identity, that identity is a row of the
store, it is enabled, its stored prefix is the first 8 bytes of the trimmed token
and the hash check of the trimmed token against its stored hash succeeded. A store
lookup error, a located identity whose hash check fails, and a store in which every
identity with the matching prefix is disabled or fails the hash check, each yield
`ErrInvalidAPIToken`. -/
theorem VerifyToken_sound (check : GoString → GoString → Bool) (rows : List APIUser)
    (lookupFault touchFault : Option GoError) (now : Int) (token : GoString) :
    (∀ u, (VerifyToken check rows lookupFault touchFault now token).1 = .ok u →
        u ∈ rows ∧ u.Enabled = true
          ∧ u.TokenPrefix = (TrimSpace token).take 8
          ∧ check u.TokenHash (TrimSpace token) = true)
    ∧ (lookupFault ≠ none →
        (VerifyToken check rows lookupFault touchFault now token).1
          = .error GoError.ErrInvalidAPIToken)
    ∧ (∀ u, dbFirstEnabledByPrefix rows lookupFault ((TrimSpace token).take 8) = .ok u →
        check u.TokenHash (TrimSpace token) = false →
        (VerifyToken check rows lookupFault touchFault now token).1
          = .error GoError.ErrInvalidAPIToken)
    ∧ ((∀ r ∈ rows, r.TokenPrefix = (TrimSpace token).take 8 →
          r.Enabled = false ∨ check r.TokenHash (TrimSpace token) = false) →
        (VerifyToken check rows lookupFault touchFault now token).1
          = .error GoError.ErrInvalidAPIToken) := by
  refine ⟨fun u h => VerifyToken_ok_inv h, ?_, ?_, VerifyToken_all_rejected _ _ _⟩
  · intro hf
    cases hres : (VerifyToken check rows lookupFault touchFault now token).1 with
    | error e => rw [VerifyToken_error hres]
    | ok u =>
      exfalso
      unfold VerifyToken at hres
      simp only at hres
      split at hres
      · cases hres
      · split at hres
        · cases hres
        · rename_i v hv
          unfold dbFirstEnabledByPrefix at hv
          split at hv
          · cases hv
          · exact hf rfl
  · intro u hu hc
    cases hres : (VerifyToken check rows lookupFault touchFault now token).1 with
    | error e => rw [VerifyToken_error hres]
    | ok v =>
      exfalso
      unfold VerifyToken at hres
      simp only at hres
      split at hres
      · cases hres
      · rw [show apiTokenPrefixLength = 8 from rfl, hu] at hres
        simp [hc] at hres

/-- C1, at a concrete store: the secret of `exampleUser` verifies, and the identity
returned is enabled, carries the prefix of the secret and passes the hash check. -/
theorem VerifyToken_sound_witness :
    (VerifyToken exampleCheck [exampleUser] none none 7 exampleToken).1 = .ok exampleUser
    ∧ (exampleUser ∈ [exampleUser] ∧ exampleUser.Enabled = true
        ∧ exampleUser.TokenPrefix = (TrimSpace exampleToken).take 8
        ∧ exampleCheck exampleUser.TokenHash (TrimSpace exampleToken) = true) :=
  ⟨by decide,
    (VerifyToken_sound exampleCheck [exampleUser] none none 7 exampleToken).1 exampleUser
      (by decide)⟩

/-! ## The gate without a verified identity -/

/-- C2. A request without a token under `tokenOnly = true`, and a request with a
non-empty token that `VerifyToken` rejects, both end in the same outcome: abort
with status 404 and no body, nothing stored in the context, `c.Next()` not called.
This holds for every value of `session.IsLogin` and, for the rejected token, for
every value of `tokenOnly`. -/
theorem apiAuthHandler_not_found (env : Env) (st : GateState) (c : Request)
    (h : (extractAPIToken c = [] ∧ env.tokenOnly.1 = true)
      ∨ (extractAPIToken c ≠ [] ∧
          ∃ e, (VerifyToken env.check st.rows env.lookupFault env.touchFault env.now
                  (extractAPIToken c)).1 = .error e)) :
    (apiAuthHandler env st c).1 = Outcome.abort 404 none := by
  unfold apiAuthHandler
  rcases h with ⟨ht, ho⟩ | ⟨ht, e, he⟩
  · simp [ht, ho, StatusNotFound]
  · simp only [ht, false_and, if_false]
    split
    · rfl
    · rename_i u rows1 hv
      rw [hv] at he
      cases he

/-- C4. With a quota `q ≤ 0`, `allow` returns true and leaves the registry as it
was, both maps included, so any number of such calls all return true. -/
theorem allow_unlimited (s : apiRateLimiterStore) (id q : Int) (hq : q ≤ 0) :
    (∀ now, allow s now id q = (true, s))
    ∧ (∀ times, allowSeq s id q times = (List.replicate times.length true, s)) := by
  have h1 : ∀ now, allow s now id q = (true, s) := by
    intro now
    unfold allow
    simp [hq]
  refine ⟨h1, ?_⟩
  intro times
  induction times with
  | nil => rfl
  | cons t rest ih =>
    unfold allowSeq
    simp only [h1 t, ih, List.length_cons, List.replicate_succ]

/-- C10. `EffectiveRateLimit` is the identity's own limit when that is positive,
otherwise the global default when it was read without error and is not negative,
otherwise 0; it is never negative. -/
theorem EffectiveRateLimit_spec (defaultLimit : Int × Option GoError) (apiUser : Option APIUser) :
    (∀ u, apiUser = some u → 0 < u.RateLimitPerMinute →
        EffectiveRateLimit defaultLimit apiUser = u.RateLimitPerMinute)
    ∧ (∀ u, apiUser = some u → u.RateLimitPerMinute ≤ 0 → defaultLimit.2 = none →
        0 ≤ defaultLimit.1 → EffectiveRateLimit defaultLimit apiUser = defaultLimit.1)
    ∧ (∀ u, apiUser = some u → u.RateLimitPerMinute ≤ 0 →
        (defaultLimit.2 ≠ none ∨ defaultLimit.1 < 0) →
        EffectiveRateLimit defaultLimit apiUser = 0)
    ∧ (apiUser = none → EffectiveRateLimit defaultLimit apiUser = 0)
    ∧ 0 ≤ EffectiveRateLimit defaultLimit apiUser := by
  refine ⟨?_, ?_, ?_, ?_, ?_⟩
  · rintro u rfl hu
    simp [EffectiveRateLimit, hu]
  · rintro u rfl hu he hl
    have : ¬ (0 < u.RateLimitPerMinute) := by omega
    have h2 : ¬ (defaultLimit.1 < 0) := by omega
    simp [EffectiveRateLimit, this, he, h2]
  · rintro u rfl hu h
    have : ¬ (0 < u.RateLimitPerMinute) := by omega
    simp only [EffectiveRateLimit, gt_iff_lt, this, if_false]
    rw [if_pos h]
  · rintro rfl
    rfl
  · unfold EffectiveRateLimit
    split
    · exact le_refl _
    · split
      · omega
      · simp only
        split
        · exact le_refl _
        · omega

/-! ## Lemmas on `float64` rounding -/

theorem bitLog_spec : ∀ fuel n, n ≤ fuel → n ≠ 0 →
    2 ^ bitLog fuel n ≤ n ∧ n < 2 ^ (bitLog fuel n + 1) := by
  intro fuel
  induction fuel with
  | zero => intro n h h0; omega
  | succ fuel ih =>
    intro n h h0
    unfold bitLog
    by_cases h2 : n < 2
    · rw [if_pos h2]
      have : n = 1 := by omega
      subst this
      simp
    · rw [if_neg h2]
      obtain ⟨h3, h4⟩ := ih (n / 2) (by omega) (by omega)
      have e1 : 2 ^ (bitLog fuel (n / 2) + 1) = 2 * 2 ^ bitLog fuel (n / 2) := by
        rw [pow_succ, Nat.mul_comm]
      have e2 : 2 ^ (bitLog fuel (n / 2) + 1 + 1) = 4 * 2 ^ bitLog fuel (n / 2) := by
        rw [pow_succ, pow_succ]
        omega
      rw [e1] at h4
      rw [e1, e2]
      generalize 2 ^ bitLog fuel (n / 2) = p at h3 h4
      omega


theorem bitLog_lt {n k : Nat} (h : n < 2 ^ k) : bitLog n n < k ∨ n = 0 := by
  by_cases h0 : n = 0
  · exact Or.inr h0
  · left
    have := (bitLog_spec n n (le_refl _) h0).1
    by_contra hc
    have : 2 ^ k ≤ 2 ^ bitLog n n := Nat.pow_le_pow_right (by omega) (by omega)
    omega

/-- The result of rounding is one of the two neighbours on the grid. -/
theorem roundNat_ge (a b : Nat) :
    a / (b * 2 ^ (bitLog (a / b) (a / b) - 52)) * 2 ^ (bitLog (a / b) (a / b) - 52)
      ≤ roundNat a b := by
  unfold roundNat
  simp only
  have : ∀ q s : Nat, q * s ≤ (q + 1) * s := fun q s => Nat.mul_le_mul_right s (by omega)
  repeat' split
  all_goals first
    | exact le_refl _
    | exact this _ _

/-- Rounding leaves a multiple of the grid step as it is. -/
theorem roundNat_exact {a : Nat} (h : 2 ^ (bitLog a a - 52) ∣ a) : roundNat a 1 = a := by
  unfold roundNat
  simp only [Nat.div_one, one_mul]
  have hpos : 0 < 2 ^ (bitLog a a - 52) := by positivity
  have hr : a % 2 ^ (bitLog a a - 52) = 0 := Nat.mod_eq_zero_of_dvd h
  rw [hr]
  simp only [mul_zero, hpos, if_true]
  exact Nat.div_mul_cancel h

theorem roundNat_pow {k : Nat} (e : Nat) (h : k < 2 ^ 53) :
    roundNat (k * 2 ^ e) 1 = k * 2 ^ e := by
  apply roundNat_exact
  have hlt : k * 2 ^ e < 2 ^ (53 + e) := by
    rw [pow_add]
    exact Nat.mul_lt_mul_of_pos_right h (by positivity)
  rcases bitLog_lt hlt with hb | hb
  · have hle : bitLog (k * 2 ^ e) (k * 2 ^ e) - 52 ≤ e := by omega
    exact Dvd.dvd.mul_left (pow_dvd_pow 2 hle) k
  · rw [hb]
    exact dvd_zero _

/-- Rounding does not go below a lower bound `k * 2^e` with `k` under `2^53`. -/
theorem roundNat_mono_pow {a k : Nat} (e : Nat) (hk : k < 2 ^ 53) (h : k * 2 ^ e ≤ a) :
    k * 2 ^ e ≤ roundNat a 1 := by
  refine le_trans ?_ (roundNat_ge a 1)
  simp only [Nat.div_one, one_mul]
  by_cases ha : a = 0
  · subst ha
    simpa using h
  obtain ⟨hlo, hhi⟩ := bitLog_spec a a (le_refl _) ha
  generalize bitLog a a = L at hlo hhi
  by_cases hL : L - 52 ≤ e
  · -- the bound lies on the grid
    have hdvd : 2 ^ (L - 52) ∣ k * 2 ^ e := Dvd.dvd.mul_left (pow_dvd_pow 2 hL) k
    obtain ⟨m, hm⟩ := hdvd
    rw [hm] at h ⊢
    have hpos : 0 < 2 ^ (L - 52) := by positivity
    have : m ≤ a / 2 ^ (L - 52) := by
      rw [Nat.le_div_iff_mul_le hpos, Nat.mul_comm]
      exact h
    calc 2 ^ (L - 52) * m = m * 2 ^ (L - 52) := Nat.mul_comm _ _
      _ ≤ a / 2 ^ (L - 52) * 2 ^ (L - 52) := Nat.mul_le_mul_right _ this
  · -- the value is above every such bound
    have hpos : 0 < 2 ^ (L - 52) := by positivity
    have h52 : 2 ^ 52 ≤ a / 2 ^ (L - 52) := by
      rw [Nat.le_div_iff_mul_le hpos, ← pow_add]
      have : 52 + (L - 52) = L := by omega
      rw [this]
      exact hlo
    have hbig : k * 2 ^ e ≤ 2 ^ 52 * 2 ^ (L - 52) := by
      have h1 : k * 2 ^ e ≤ 2 ^ 53 * 2 ^ e := Nat.mul_le_mul (le_of_lt hk) (le_refl _)
      have h2 : (2 : Nat) ^ 53 * 2 ^ e ≤ 2 ^ 52 * 2 ^ (L - 52) := by
        rw [← pow_add, ← pow_add]
        exact Nat.pow_le_pow_right (by omega) (by omega)
      exact le_trans h1 h2
    exact le_trans hbig (Nat.mul_le_mul_right _ h52)

theorem roundNat_int {k : Nat} (h : k < 2 ^ 53) : roundNat (k * unit64) 1 = k * unit64 :=
  roundNat_pow 1074 h

theorem roundNat_mono {a k : Nat} (hk : k < 2 ^ 53) (h : k * unit64 ≤ a) :
    k * unit64 ≤ roundNat a 1 :=
  roundNat_mono_pow 1074 hk h

theorem roundNat_zero (b : Nat) : roundNat 0 b = 0 := by
  unfold roundNat
  simp

theorem roundRat_zero (d : Nat) : roundRat 0 d = 0 := by
  unfold roundRat
  simp [roundNat_zero]

theorem roundRat_nonneg {n : Int} (d : Nat) (h : 0 ≤ n) : 0 ≤ roundRat n d := by
  unfold roundRat
  rw [if_neg (by omega)]
  exact Int.natCast_nonneg _

/-- An integer below `2^53` is a `float64`: rounding leaves it as it is. -/
theorem roundRat_int {k : Int} (h0 : 0 ≤ k) (h : k < 2 ^ 53) :
    roundRat (k * unit64) 1 = k * unit64 := by
  obtain ⟨m, rfl⟩ := Int.eq_ofNat_of_zero_le h0
  have hm : m < 2 ^ 53 := by exact_mod_cast h
  unfold roundRat
  have hnn : ¬ ((m : Int) * (unit64 : Int) < 0) :=
    not_lt.mpr (mul_nonneg (Int.natCast_nonneg _) (Int.natCast_nonneg _))
  rw [if_neg hnn]
  have : ((m : Int) * (unit64 : Int)).toNat = m * unit64 := by
    rw [← Nat.cast_mul, Int.toNat_natCast]
  rw [this, roundNat_int hm]
  push_cast
  rfl

theorem F64.ofInt_int {k : Int} (h0 : 0 ≤ k) (h : k < 2 ^ 53) : F64.ofInt k = k * unit64 :=
  roundRat_int h0 h

theorem F64.ofInt_zero : F64.ofInt 0 = 0 := by
  unfold F64.ofInt
  rw [zero_mul, roundRat_zero]

/-- Adding a non-negative `float64` to an integer below `2^53` does not go below it. -/
theorem F64.add_ge {k d : Int} (h0 : 0 ≤ k) (h : k < 2 ^ 53) (hd : 0 ≤ d) :
    k * unit64 ≤ F64.add (k * unit64) d := by
  obtain ⟨m, rfl⟩ := Int.eq_ofNat_of_zero_le h0
  have hm : m < 2 ^ 53 := by exact_mod_cast h
  have hnn : (0 : Int) ≤ (m : Int) * (unit64 : Int) + d :=
    add_nonneg (mul_nonneg (Int.natCast_nonneg _) (Int.natCast_nonneg _)) hd
  unfold F64.add roundRat
  rw [if_neg (by omega)]
  have hle : m * unit64 ≤ ((m : Int) * (unit64 : Int) + d).toNat := by
    have : ((m * unit64 : Nat) : Int) ≤ (m : Int) * (unit64 : Int) + d := by
      push_cast
      omega
    omega
  have := roundNat_mono hm hle
  exact_mod_cast this

theorem F64.add_zero_int {k : Int} (h0 : 0 ≤ k) (h : k < 2 ^ 53) :
    F64.add (k * unit64) 0 = k * unit64 := by
  unfold F64.add
  rw [add_zero, roundRat_int h0 h]

theorem F64.sub_one_int {k : Int} (h1 : 1 ≤ k) (h : k < 2 ^ 53) :
    F64.sub (k * unit64) (F64.ofInt 1) = (k - 1) * unit64 := by
  rw [F64.ofInt_int (by omega) (by norm_num)]
  unfold F64.sub
  have : k * (unit64 : Int) - 1 * (unit64 : Int) = (k - 1) * (unit64 : Int) := by ring
  rw [this, roundRat_int (by omega) (by omega)]

theorem seconds_zero : seconds 0 = 0 := by
  unfold seconds
  have h1 : Int.tdiv 0 Second = 0 := by simp
  have h2 : Int.tmod 0 Second = 0 := by simp
  rw [h1, h2, F64.ofInt_zero]
  unfold F64.div
  simp only [zero_mul, neg_zero, roundRat_zero, ite_self]
  unfold F64.add
  simp [roundRat_zero]

theorem seconds_nonneg {d : Int} (h : 0 ≤ d) : 0 ≤ seconds d := by
  have h1 : 0 ≤ Int.tdiv d Second := Int.tdiv_nonneg h (by unfold Second; omega)
  have h2 : 0 ≤ Int.tmod d Second := Int.tmod_nonneg _ h
  have ha : 0 ≤ F64.ofInt (Int.tdiv d Second) :=
    roundRat_nonneg 1 (mul_nonneg h1 (Int.natCast_nonneg _))
  have hb : 0 ≤ F64.ofInt (Int.tmod d Second) :=
    roundRat_nonneg 1 (mul_nonneg h2 (Int.natCast_nonneg _))
  have hc : 0 ≤ F64.div (F64.ofInt (Int.tmod d Second)) (F64.ofInt 1000000000) := by
    have h9 : F64.ofInt 1000000000 = 1000000000 * unit64 :=
      F64.ofInt_int (by norm_num) (by norm_num)
    unfold F64.div
    have hpos : ¬ (F64.ofInt 1000000000 < 0) := by
      rw [h9]
      exact not_lt.mpr (mul_nonneg (by norm_num) (Int.natCast_nonneg _))
    rw [if_neg hpos]
    exact roundRat_nonneg _ (mul_nonneg hb (Int.natCast_nonneg _))
  unfold seconds F64.add
  exact roundRat_nonneg 1 (add_nonneg ha hc)

theorem tokensFromDuration_nonneg (r : F64) {d : Int} (h : 0 ≤ d) :
    0 ≤ tokensFromDuration r d := by
  unfold tokensFromDuration
  by_cases hr : r ≤ 0
  · rw [if_pos hr]
  · rw [if_neg hr]
    unfold F64.mul
    exact roundRat_nonneg _ (mul_nonneg (seconds_nonneg h) (le_of_lt (not_le.mp hr)))

theorem tokensFromDuration_zero (r : F64) : tokensFromDuration r 0 = 0 := by
  unfold tokensFromDuration
  split
  · rfl
  · rw [seconds_zero]
    unfold F64.mul
    rw [zero_mul, roundRat_zero]

/-! ## Known `float64` values

The rounding agrees with IEEE 754 on the usual examples: `0.1 + 0.2` is
`0x3FD3333333333334`, one step above `0.3`, and `1 / 3` is `0x3FD5555555555555`. -/

theorem F64.example_sum :
    F64.add (F64.div (F64.ofInt 1) (F64.ofInt 10)) (F64.div (F64.ofInt 2) (F64.ofInt 10))
        = 1351079888211149 * 2 ^ 1022
    ∧ F64.div (F64.ofInt 3) (F64.ofInt 10) = 5404319552844595 * 2 ^ 1020 := by
  decide!

theorem F64.example_third :
    F64.div (F64.ofInt 1) (F64.ofInt 3) = 6004799503160661 * 2 ^ 1020 := by
  decide!

/-- The call `Duration.Seconds` on 999999999 ns gives the `float64` just above
0.999999999, so that one minus it is below `1e-9`. -/
theorem seconds_example :
    seconds 999999999 = 9007199245733793 * 2 ^ 1021
    ∧ F64.sub (F64.ofInt 1) (seconds 999999999) = 9007199 * 2 ^ 1021
    ∧ F64.toInt (F64.mul (F64.sub (F64.ofInt 1) (seconds 999999999)) (F64.ofInt 1000000000))
        = 0 := by
  decide!

/-! ## Lemmas on the token bucket -/

theorem timeSub_self (t : Int) : timeSub t t = 0 := by
  unfold timeSub maxDuration
  simp

theorem timeSub_nonneg {t u : Int} (h : u ≤ t) : 0 ≤ timeSub t u := by
  unfold timeSub maxDuration
  omega

/-- A full bucket stays full under `advance`, whatever the time. -/
theorem advance_full {lim : Limiter} (r : F64) (t : Int) (h0 : 0 ≤ lim.burst)
    (hb : lim.burst < 2 ^ 53) (h : lim.tokens = F64.ofInt lim.burst) :
    advance lim r t = F64.ofInt lim.burst := by
  unfold advance
  simp only
  have hd : 0 ≤ tokensFromDuration r (timeSub t (if t < lim.last then t else lim.last)) := by
    apply tokensFromDuration_nonneg
    apply timeSub_nonneg
    split <;> omega
  generalize tokensFromDuration r (timeSub t (if t < lim.last then t else lim.last)) = d at hd
  rw [h, F64.ofInt_int h0 hb]
  have hge := F64.add_ge h0 hb hd
  by_cases hgt : F64.add (lim.burst * unit64) d > lim.burst * unit64
  · rw [if_pos hgt]
  · rw [if_neg hgt]
    exact le_antisymm (not_lt.mp hgt) hge

/-- With no time elapsed, `advance` leaves a bucket of whole tokens as it is. -/
theorem advance_same_instant {lim : Limiter} (r : F64) {t k : Int} (hl : lim.last = t)
    (h0 : 0 ≤ k) (hk : k ≤ lim.burst) (hb : lim.burst < 2 ^ 53)
    (h : lim.tokens = F64.ofInt k) : advance lim r t = F64.ofInt k := by
  unfold advance
  simp only [hl, lt_self_iff_false, if_false, timeSub_self, tokensFromDuration_zero]
  rw [h, F64.ofInt_int h0 (by omega), F64.ofInt_int (by omega) hb,
    F64.add_zero_int h0 (by omega)]
  have hle : k * (unit64 : Int) ≤ lim.burst * (unit64 : Int) :=
    mul_le_mul_of_nonneg_right hk (Int.natCast_nonneg _)
  rw [if_neg (not_lt.mpr hle)]

/-- A call that finds at least one whole token takes it. -/
theorem reserveN_of_tokens {lim : Limiter} {r : F64} {t k : Int}
    (hr : lim.limit = Limit.finite r) (hb : 1 ≤ lim.burst) (h1 : 1 ≤ k) (hk : k < 2 ^ 53)
    (ha : advance lim r t = F64.ofInt k) :
    reserveN lim t 1 = (true, { lim with last := t, tokens := F64.ofInt (k - 1) }) := by
  unfold reserveN
  rw [hr]
  simp only [ha]
  rw [F64.ofInt_int (by omega) hk, F64.sub_one_int h1 hk, F64.ofInt_int (by omega) (by omega)]
  have hnn : ¬ ((k - 1) * (unit64 : Int) < 0) := by
    have : (0 : Int) ≤ (k - 1) * (unit64 : Int) := mul_nonneg (by omega) (Int.natCast_nonneg _)
    omega
  simp [hnn, hb]

/-! ## Lemmas on the registry -/

/-- A limiter that is stored with the requested quota is returned as it is. -/
theorem getLimiter_hit {s : apiRateLimiterStore} {id q : Int} {L : Limiter}
    (hL : s.limiters id = some L) (hq : s.limits id = some q) : getLimiter s id q = (L, s) := by
  unfold getLimiter
  simp [hL, hq]

theorem getLimiter_fresh {s : apiRateLimiterStore} {id q : Int}
    (h : s.limiters id = none ∨ (s.limits id).getD 0 ≠ q) :
    getLimiter s id q = rebuildLimiter s id q := by
  unfold getLimiter
  cases hL : s.limiters id with
  | none => rfl
  | some L =>
    rcases h with h | h
    · rw [hL] at h; cases h
    · simp [h]

theorem rebuildLimiter_limiters (s : apiRateLimiterStore) (id q : Int) :
    (rebuildLimiter s id q).2.limiters id = some (rebuildLimiter s id q).1 := by
  simp [rebuildLimiter]

theorem rebuildLimiter_limits (s : apiRateLimiterStore) (id q : Int) :
    (rebuildLimiter s id q).2.limits id = some q := by
  simp [rebuildLimiter]

theorem allow_eq {s : apiRateLimiterStore} {t id q : Int} (hq : 0 < q) :
    allow s t id q
      = ((reserveN (getLimiter s id q).1 t 1).1,
          { (getLimiter s id q).2 with
            limiters := Function.update (getLimiter s id q).2.limiters id
              (some (reserveN (getLimiter s id q).1 t 1).2) }) := by
  unfold allow Limiter.Allow
  have : ¬ (q ≤ 0) := by omega
  simp [this]

theorem allow_hit {s : apiRateLimiterStore} {t id q : Int} {L : Limiter} (hpos : 0 < q)
    (hL : s.limiters id = some L) (hq : s.limits id = some q) :
    allow s t id q
      = ((reserveN L t 1).1,
          { s with limiters := Function.update s.limiters id (some (reserveN L t 1).2) }) := by
  rw [allow_eq hpos, getLimiter_hit hL hq]

/-- A call that finds no limiter, or one built for another quota, behaves like the
same call on the registry in which the new limiter is already stored. -/
theorem allow_fresh {s : apiRateLimiterStore} {t id q : Int} (hpos : 0 < q)
    (h : s.limiters id = none ∨ (s.limits id).getD 0 ≠ q) :
    allow s t id q = allow (rebuildLimiter s id q).2 t id q := by
  rw [allow_eq hpos, getLimiter_fresh h]
  rw [allow_hit hpos (rebuildLimiter_limiters s id q) (rebuildLimiter_limits s id q)]

theorem allowSeq_cons (s : apiRateLimiterStore) (id q t : Int) (rest : List Int) :
    allowSeq s id q (t :: rest)
      = ((allow s t id q).1 :: (allowSeq (allow s t id q).2 id q rest).1,
          (allowSeq (allow s t id q).2 id q rest).2) := rfl

theorem allowSeq_fresh {s : apiRateLimiterStore} {id q : Int} (t : Int) (rest : List Int)
    (hpos : 0 < q) (h : s.limiters id = none ∨ (s.limits id).getD 0 ≠ q) :
    allowSeq s id q (t :: rest) = allowSeq (rebuildLimiter s id q).2 id q (t :: rest) := by
  rw [allowSeq_cons, allowSeq_cons, allow_fresh hpos h]

/-- After a call with a positive quota the registry holds a limiter for the
identity and records that quota. -/
theorem allow_records {s : apiRateLimiterStore} {t id q : Int} (hpos : 0 < q) :
    (allow s t id q).2.limits id = some q ∧ ∃ L, (allow s t id q).2.limiters id = some L := by
  rw [allow_eq hpos]
  refine ⟨?_, ⟨(reserveN (getLimiter s id q).1 t 1).2, by simp⟩⟩
  simp only
  unfold getLimiter
  cases hL : s.limiters id with
  | none => exact rebuildLimiter_limits s id q
  | some L =>
    simp only
    split
    · rename_i hc
      simp only
      cases hq : s.limits id with
      | none => rw [hq] at hc; simp at hc; omega
      | some v => rw [hq] at hc; simpa using hc
    · exact rebuildLimiter_limits s id q

theorem allowSeq_records {s : apiRateLimiterStore} {id q : Int} (hpos : 0 < q) (times : List Int)
    (hne : times ≠ []) :
    (allowSeq s id q times).2.limits id = some q
      ∧ ∃ L, (allowSeq s id q times).2.limiters id = some L := by
  induction times generalizing s with
  | nil => exact absurd rfl hne
  | cons t rest ih =>
    rw [allowSeq_cons]
    dsimp only
    cases rest with
    | nil => exact allow_records hpos
    | cons t2 rest2 => exact ih (s := (allow s t id q).2) (List.cons_ne_nil _ _)

/-- With an infinite limit every call is allowed. -/
theorem allowSeq_inf {id q : Int} (hpos : 0 < q) (times : List Int) :
    ∀ (s : apiRateLimiterStore) (L : Limiter), s.limiters id = some L → s.limits id = some q →
      L.limit = Limit.Inf →
      (allowSeq s id q times).1 = List.replicate times.length true
        ∧ (allowSeq s id q times).2.limits id = some q := by
  induction times with
  | nil => intro s L _ hq _; exact ⟨rfl, hq⟩
  | cons t rest ih =>
    intro s L hL hq hinf
    have hres : reserveN L t 1 = (true, L) := by
      unfold reserveN
      rw [hinf]
    rw [allowSeq_cons, allow_hit hpos hL hq, hres]
    have := ih { s with limiters := Function.update s.limiters id (some L) } L (by simp) hq hinf
    simp only [List.length_cons, List.replicate_succ]
    exact ⟨by rw [this.1], this.2⟩

/-- From a bucket with `q - k` tokens, `n ≤ q - k` calls at one instant all succeed
and leave `q - k - n` tokens. -/
theorem allowSeq_same_instant {id q t : Int} {r : F64} (hpos : 0 < q) (hq53 : q < 2 ^ 53)
    (n : Nat) :
    ∀ (k : Nat) (s : apiRateLimiterStore) (L : Limiter), s.limiters id = some L →
      s.limits id = some q → L.limit = Limit.finite r → L.burst = q →
      L.tokens = F64.ofInt (q - (k : Int)) → (k = 0 ∨ L.last = t) → ((k : Int) + (n : Int) ≤ q) →
      (allowSeq s id q (List.replicate n t)).1 = List.replicate n true
        ∧ (allowSeq s id q (List.replicate n t)).2.limits id = some q
        ∧ ∃ L1, (allowSeq s id q (List.replicate n t)).2.limiters id = some L1
            ∧ L1.limit = Limit.finite r ∧ L1.burst = q
            ∧ L1.tokens = F64.ofInt (q - ((k + n : Nat) : Int)) ∧ (k + n = 0 ∨ L1.last = t) := by
  induction n with
  | zero =>
    intro k s L hL hq hr hb ht hl _
    exact ⟨rfl, hq, L, hL, hr, hb, by simpa using ht, by simpa using hl⟩
  | succ n ih =>
    intro k s L hL hq hr hb ht hl hk
    have hkq : (k : Int) + 1 ≤ q := by push_cast at hk; omega
    have hadv : advance L r t = F64.ofInt (q - (k : Int)) := by
      rcases hl with h0 | hlast
      · subst h0
        have hfull : L.tokens = F64.ofInt L.burst := by rw [ht, hb]; simp
        rw [advance_full r t (by omega) (by omega) hfull, hb]
        simp
      · exact advance_same_instant r hlast (by omega) (by omega) (by omega) ht
    have hres : reserveN L t 1
        = (true, { L with last := t, tokens := F64.ofInt (q - (k : Int) - 1) }) :=
      reserveN_of_tokens hr (by omega) (by omega) (by omega) hadv
    rw [List.replicate_succ, allowSeq_cons, allow_hit hpos hL hq, hres]
    have := ih (k + 1) { s with limiters := Function.update s.limiters id (some { L with last := t, tokens := F64.ofInt (q - (k : Int) - 1) }) }
      { L with last := t, tokens := F64.ofInt (q - (k : Int) - 1) } (by simp) hq hr hb
      (by
        have : q - ((k + 1 : Nat) : Int) = q - (k : Int) - 1 := by push_cast; ring
        rw [this])
      (Or.inr rfl) (by push_cast at hk ⊢; omega)
    obtain ⟨h1, h2, L1, h3, h4, h5, h6, h7⟩ := this
    refine ⟨by simp only [h1, List.replicate_succ], h2, L1, h3, h4, h5, ?_, ?_⟩
    · rw [h6]
      have : ((k + 1 + n : Nat) : Int) = ((k + (n + 1) : Nat) : Int) := by push_cast; ring
      rw [this]
    · right
      rcases h7 with h7 | h7
      · omega
      · exact h7

/-- For a quota up to `time.Minute` nanoseconds the interval `time.Minute / q` is at
least one nanosecond, so `rate.Every` gives the finite limit `1 / interval.Seconds()`. -/
theorem Every_small {q : Int} (hpos : 0 < q) (hq : q ≤ Minute) :
    1 ≤ Int.tdiv Minute q ∧ Int.tdiv Minute q ≤ Minute
      ∧ Every (Int.tdiv Minute q)
          = Limit.finite (F64.div (F64.ofInt 1) (seconds (Int.tdiv Minute q))) := by
  have hM : (0 : Int) ≤ Minute := by unfold Minute Second; omega
  rw [Int.tdiv_eq_ediv hM (le_of_lt hpos)]
  have h1 : 1 ≤ Minute / q := by
    rw [Int.le_ediv_iff_mul_le hpos]
    omega
  refine ⟨h1, Int.ediv_le_self q hM, ?_⟩
  unfold Every
  rw [if_neg (by omega)]

theorem Minute_lt : Minute < 2 ^ 53 := by
  unfold Minute Second
  norm_num

theorem Every_large {q : Int} (hq : Minute < q) : Every (Int.tdiv Minute q) = Limit.Inf := by
  have hM : (0 : Int) ≤ Minute := by unfold Minute Second; omega
  rw [Int.tdiv_eq_ediv hM (by omega), Int.ediv_eq_zero_of_lt hM hq]
  rfl

theorem allowSeq_append (s : apiRateLimiterStore) (id q : Int) (a b : List Int) :
    allowSeq s id q (a ++ b)
      = ((allowSeq s id q a).1 ++ (allowSeq (allowSeq s id q a).2 id q b).1,
          (allowSeq (allowSeq s id q a).2 id q b).2) := by
  induction a generalizing s with
  | nil => rfl
  | cons t rest ih =>
    rw [List.cons_append, allowSeq_cons, ih, allowSeq_cons]
    rfl

/-- From a registry without a limiter for the identity, or with one built for another
quota, `q` calls at one instant are all allowed and the registry records `q`. -/
theorem allowSeq_full_bucket {s : apiRateLimiterStore} {id q : Int} (t : Int) (hpos : 0 < q)
    (h : s.limiters id = none ∨ (s.limits id).getD 0 ≠ q) :
    (allowSeq s id q (List.replicate q.toNat t)).1 = List.replicate q.toNat true
      ∧ (allowSeq s id q (List.replicate q.toNat t)).2.limits id = some q := by
  obtain ⟨m, hm⟩ : ∃ m, q.toNat = m + 1 := ⟨q.toNat - 1, by omega⟩
  rw [hm, List.replicate_succ, allowSeq_fresh t _ hpos h, ← List.replicate_succ, ← hm]
  by_cases hq : q ≤ Minute
  · obtain ⟨_, _, hE⟩ := Every_small hpos hq
    have hq53 : q < 2 ^ 53 := lt_of_le_of_lt hq Minute_lt
    have := @allowSeq_same_instant id q t _ hpos hq53 q.toNat 0
      (rebuildLimiter s id q).2 (rebuildLimiter s id q).1 (rebuildLimiter_limiters s id q)
      (rebuildLimiter_limits s id q) hE rfl
      (by simp [rebuildLimiter, NewLimiter]) (Or.inl rfl) (by simp; omega)
    exact ⟨this.1, this.2.1⟩
  · have := @allowSeq_inf id q hpos (List.replicate q.toNat t) (rebuildLimiter s id q).2
      (rebuildLimiter s id q).1 (rebuildLimiter_limiters s id q) (rebuildLimiter_limits s id q)
      (Every_large (by omega))
    simpa using this

/-! ## The claims on the registry and the gate -/

/-- C3, at the quota 60000000001. This quota exceeds `time.Minute` in nanoseconds,
so `getLimiter` computes the interval 0 and `rate.Every` turns it into `rate.Inf`:
for an identity without a limiter entry every call is allowed, whatever the times
of the calls, and so is the last of `q + 1` calls made at one instant. -/
theorem allowSeq_quota_above_minute (s : apiRateLimiterStore) (id t : Int) (times : List Int)
    (h : s.limiters id = none) :
    (allowSeq s id 60000000001 times).1 = List.replicate times.length true
    ∧ (allowSeq s id 60000000001
          (List.replicate ((60000000001 : Int).toNat + 1) t)).1.getLast? = some true := by
  have hpos : (0 : Int) < 60000000001 := by decide
  have hbig : Minute < 60000000001 := by decide
  have key : ∀ ts : List Int,
      (allowSeq s id 60000000001 ts).1 = List.replicate ts.length true := by
    intro ts
    cases ts with
    | nil => rfl
    | cons t0 rest =>
      rw [allowSeq_fresh t0 rest hpos (Or.inl h)]
      exact (allowSeq_inf hpos (t0 :: rest) (rebuildLimiter s id 60000000001).2
        (rebuildLimiter s id 60000000001).1 (rebuildLimiter_limiters s id _)
        (rebuildLimiter_limits s id _) (Every_large hbig)).1
  refine ⟨key times, ?_⟩
  rw [key, List.length_replicate, List.getLast?_replicate, if_neg (Nat.succ_ne_zero _)]

/-- C3, at the quota 60000000001 and a new registry: three calls at one instant. -/
theorem allowSeq_quota_above_minute_witness :
    newAPIRateLimiterStore.limiters 1 = none
    ∧ (allowSeq newAPIRateLimiterStore 1 60000000001 [5, 5, 5]).1 = [true, true, true] :=
  ⟨rfl, (allowSeq_quota_above_minute newAPIRateLimiterStore 1 5 [5, 5, 5] rfl).1⟩

/-- C4, at the quota 0 and a new registry. -/
theorem allow_unlimited_witness :
    (0 : Int) ≤ 0
    ∧ (∀ now, allow newAPIRateLimiterStore now 1 0 = (true, newAPIRateLimiterStore))
    ∧ (allowSeq newAPIRateLimiterStore 1 0 [5, 5, 6]).1 = [true, true, true] :=
  ⟨le_refl _, (allow_unlimited newAPIRateLimiterStore 1 0 (le_refl _)).1,
    congrArg Prod.fst ((allow_unlimited newAPIRateLimiterStore 1 0 (le_refl _)).2 [5, 5, 6])⟩

/-- C5. After one or more calls `allow(id, q1)`, at any times and from any registry,
a call with another quota `q2` gets a newly built limiter: capacity `q2`, bucket
full. The next `q2` calls `allow(id, q2)` made at one instant are all allowed, and
the registry then records `q2` for the identity. -/
theorem quota_change_resets (s0 : apiRateLimiterStore) (id q1 q2 t : Int) (times1 : List Int)
    (h1 : 0 < q1) (h2 : 0 < q2) (hne : q1 ≠ q2) (hcalls : times1 ≠ []) :
    (getLimiter (allowSeq s0 id q1 times1).2 id q2).1
        = NewLimiter (Every (Int.tdiv Minute q2)) q2
    ∧ (NewLimiter (Every (Int.tdiv Minute q2)) q2).burst = q2
    ∧ (NewLimiter (Every (Int.tdiv Minute q2)) q2).tokens = F64.ofInt q2
    ∧ (allowSeq (allowSeq s0 id q1 times1).2 id q2 (List.replicate q2.toNat t)).1
        = List.replicate q2.toNat true
    ∧ (allowSeq (allowSeq s0 id q1 times1).2 id q2 (List.replicate q2.toNat t)).2.limits id
        = some q2 := by
  have hrec := (@allowSeq_records s0 id q1 h1 times1 hcalls).1
  have hstale : (allowSeq s0 id q1 times1).2.limiters id = none
      ∨ ((allowSeq s0 id q1 times1).2.limits id).getD 0 ≠ q2 := by
    right
    rw [hrec]
    exact hne
  have hfull := @allowSeq_full_bucket (allowSeq s0 id q1 times1).2 id q2 t h2 hstale
  refine ⟨?_, rfl, rfl, hfull.1, hfull.2⟩
  rw [getLimiter_fresh hstale]
  rfl

/-- C5, at a new registry: the quota 2 is used up by three calls, the quota 3 then
allows three more at the same instant. -/
theorem quota_change_resets_witness :
    ((0 : Int) < 2 ∧ (0 : Int) < 3 ∧ (2 : Int) ≠ 3 ∧ [0, 0, (0 : Int)] ≠ [])
    ∧ (allowSeq newAPIRateLimiterStore 1 2 [0, 0, 0]).1 = [true, true, false]
    ∧ (allowSeq (allowSeq newAPIRateLimiterStore 1 2 [0, 0, 0]).2 1 3
          (List.replicate (3 : Int).toNat 0)).1 = List.replicate (3 : Int).toNat true :=
  ⟨by decide, by decide!,
    (quota_change_resets newAPIRateLimiterStore 1 2 3 0 [0, 0, 0] (by decide) (by decide)
      (by decide) (by decide)).2.2.2.1⟩

/-- C2, at a request without a token from a logged-in session, under `tokenOnly`. -/
theorem apiAuthHandler_not_found_witness :
    (extractAPIToken exampleSessionRequest = [] ∧ exampleEnv.tokenOnly.1 = true)
    ∧ (apiAuthHandler exampleEnv exampleState exampleSessionRequest).1
        = Outcome.abort 404 none :=
  ⟨by decide,
    apiAuthHandler_not_found exampleEnv exampleState exampleSessionRequest
      (Or.inl (by decide))⟩

/-- C8. When `GetAPITokenOnly` returns `false` together with an error, the gate only
logs the error: a request without a token from a logged-in session is passed on to
the next handler, it is not rejected. -/
theorem apiAuthHandler_settings_error (env : Env) (st : GateState) (c : Request) (e : GoError)
    (hs : env.tokenOnly = (false, some e)) (ht : extractAPIToken c = [])
    (hl : c.isLogin = true) :
    apiAuthHandler env st c = (Outcome.next none none, st) := by
  unfold apiAuthHandler
  simp [hs, ht, hl]

/-- C8, at a concrete request: no token, session login present, settings read failed. -/
theorem apiAuthHandler_settings_error_witness :
    (exampleEnvSettingsError.tokenOnly = (false, some (GoError.external 1))
      ∧ extractAPIToken exampleSessionRequest = [] ∧ exampleSessionRequest.isLogin = true)
    ∧ (apiAuthHandler exampleEnvSettingsError exampleState exampleSessionRequest).1
        = Outcome.next none none :=
  ⟨by decide,
    congrArg Prod.fst
      (apiAuthHandler_settings_error exampleEnvSettingsError exampleState exampleSessionRequest
        (GoError.external 1) rfl (by decide) rfl)⟩

/-- C10, at `exampleUser` (own limit 3) and the default 120. -/
theorem EffectiveRateLimit_spec_witness :
    (some exampleUser = some exampleUser ∧ 0 < exampleUser.RateLimitPerMinute)
    ∧ EffectiveRateLimit (120, none) (some exampleUser) = 3 :=
  ⟨by decide,
    (EffectiveRateLimit_spec (120, none) (some exampleUser)).1 exampleUser rfl (by decide)⟩

/-! ## Creation, rotation and verification -/

theorem seqAlphabet_ascii {b : Nat} (h : seqAlphabet b = true) :
    b < RuneSelf ∧ asciiSpace b = false := by
  unfold seqAlphabet at h
  simp only [decide_eq_true_eq] at h
  unfold RuneSelf asciiSpace
  refine ⟨by omega, ?_⟩
  simp only [decide_eq_false_iff_not]
  omega

theorem asciiSpaceRun_of_head {c : Nat} {t : GoString} (h : asciiSpace c = false) :
    asciiSpaceRun (c :: t) = 0 := by
  simp [asciiSpaceRun, h]

/-- A string that begins and ends with a byte of the `random.Seq` alphabet is
untouched by `TrimSpace`. -/
theorem TrimSpace_of_seq {s : GoString} (hne : s ≠ []) (h : ∀ b ∈ s, seqAlphabet b = true) :
    TrimSpace s = s := by
  have hrun : ∀ x : GoString, x ≠ [] → (∀ b ∈ x, seqAlphabet b = true) → asciiSpaceRun x = 0 := by
    intro x hx hall
    cases x with
    | nil => exact absurd rfl hx
    | cons c t => exact asciiSpaceRun_of_head (seqAlphabet_ascii (hall c (List.mem_cons_self _ _))).2
  have hlen : 0 < s.length := List.length_pos.mpr hne
  have hfirst : s.getD 0 0 ∈ s := by
    rw [List.getD_eq_getElem _ _ hlen]
    exact List.getElem_mem _
  have hlast : s.getD (s.length - 1) 0 ∈ s := by
    rw [List.getD_eq_getElem _ _ (by omega)]
    exact List.getElem_mem _
  unfold TrimSpace
  simp only [hrun s hne h, List.drop_zero]
  have h1 : ¬ (0 < s.length ∧ RuneSelf ≤ s.getD 0 0) := by
    intro hc
    have := (seqAlphabet_ascii (h _ hfirst)).1
    omega
  rw [if_neg h1]
  unfold trimSpaceStop
  have hrev : asciiSpaceRun s.reverse = 0 :=
    hrun s.reverse (by simpa using hne) (fun b hb => h b (List.mem_reverse.mp hb))
  simp only [hrev, Nat.sub_zero, List.take_length]
  have h2 : ¬ (s ≠ [] ∧ RuneSelf ≤ s.getD (s.length - 1) 0) := by
    intro hc
    have := (seqAlphabet_ascii (h _ hlast)).1
    omega
  rw [if_neg h2]

theorem isSeq_trim {s : GoString} (h : isSeq apiTokenLength s = true) :
    TrimSpace s = s ∧ s.length = 48 := by
  unfold isSeq at h
  simp only [Bool.and_eq_true, decide_eq_true_eq, List.all_eq_true] at h
  have hlen : s.length = 48 := h.1
  refine ⟨TrimSpace_of_seq ?_ h.2, hlen⟩
  intro hs
  rw [hs] at hlen
  cases hlen

/-- On a table whose first enabled row with the token's prefix passes the hash check,
`VerifyToken` returns that row. -/
theorem VerifyToken_ok {check : GoString → GoString → Bool} {rows : List APIUser}
    {touchFault : Option GoError} {now : Int} {token : GoString} {v : APIUser}
    (hlen : 8 ≤ (TrimSpace token).length)
    (hfirst : firstWhere (fun r => decide (r.TokenPrefix = (TrimSpace token).take 8) && r.Enabled) rows
      = some v)
    (hcheck : check v.TokenHash (TrimSpace token) = true) :
    (VerifyToken check rows none touchFault now token).1 = .ok v := by
  unfold VerifyToken
  have : ¬ ((TrimSpace token).length < apiTokenPrefixLength) := by
    unfold apiTokenPrefixLength
    omega
  simp only [this, if_false]
  unfold dbFirstEnabledByPrefix
  simp only [show apiTokenPrefixLength = 8 from rfl, hfirst, hcheck]
  simp

theorem firstWhere_append_none {p : APIUser → Bool} {rows : List APIUser} (l : List APIUser)
    (h : ∀ r ∈ rows, p r = false) : firstWhere p (rows ++ l) = firstWhere p l := by
  induction rows with
  | nil => rfl
  | cons r rest ih =>
    have hr : p r = false := h r (List.mem_cons_self _ _)
    have ih2 := ih (fun x hx => h x (List.mem_cons_of_mem _ hx))
    rw [List.cons_append, firstWhere, ih2]
    cases firstWhere p l <;> simp [hr]

theorem firstWhere_map {p : APIUser → Bool} {g : APIUser → APIUser} (rows : List APIUser)
    (hp : ∀ r, p (g r) = p r) (hid : ∀ r, (g r).Id = r.Id) :
    firstWhere p (rows.map g) = (firstWhere p rows).map g := by
  induction rows with
  | nil => rfl
  | cons r rest ih =>
    rw [List.map_cons, firstWhere, firstWhere, ih]
    cases hm : firstWhere p rest with
    | none =>
      simp only [Option.map_none', hp]
      split <;> rfl
    | some m =>
      simp only [Option.map_some', hp, hid]
      split <;> rfl

theorem firstWhere_singleton {p : APIUser → Bool} {u : APIUser} (h : p u = true) :
    firstWhere p [u] = some u := by
  simp [firstWhere, h]

/-- What a successful `CreateUser` has done. -/
theorem CreateUser_ok {seq : GoString} {hashFn : GoString → Except GoError GoString}
    {rows rows1 : List APIUser} {fault : Option GoError} {name : GoString} {rate : Int}
    {u : APIUser} {token : GoString}
    (h : CreateUser seq hashFn rows fault name rate = (.ok (u, token), rows1)) :
    hashFn seq = .ok u.TokenHash ∧ token = seq ∧ rows1 = rows ++ [u]
      ∧ u.TokenPrefix = seq.take 8 ∧ u.Enabled = true ∧ u.LastUsedAt = none
      ∧ u.Id = nextId rows := by
  unfold CreateUser at h
  simp only at h
  split at h
  · cases h
  · unfold generateToken at h
    simp only at h
    cases hh : hashFn seq with
    | error e => rw [hh] at h; cases h
    | ok hash =>
      rw [hh] at h
      simp only at h
      unfold dbCreate at h
      cases fault with
      | some e => cases h
      | none =>
        simp only [Prod.mk.injEq, Except.ok.injEq] at h
        obtain ⟨⟨hu, ht⟩, hr⟩ := h
        subst hu
        exact ⟨rfl, ht.symm, hr.symm, rfl, rfl, rfl, rfl⟩

/-- One presentation of a token on a table whose first enabled row with the token's
prefix is `v` and passes the hash check: what is returned and what the table
becomes. -/
theorem VerifyToken_step {check : GoString → GoString → Bool} {rows : List APIUser}
    {touchFault : Option GoError} {now : Int} {token : GoString} {v : APIUser}
    (hlen : 8 ≤ (TrimSpace token).length)
    (hfirst : firstWhere (fun r => decide (r.TokenPrefix = (TrimSpace token).take 8) && r.Enabled) rows
      = some v)
    (hcheck : check v.TokenHash (TrimSpace token) = true) :
    (VerifyToken check rows none touchFault now token).1 = .ok v
    ∧ ∃ w, firstWhere (fun r => decide (r.TokenPrefix = (TrimSpace token).take 8) && r.Enabled)
          (VerifyToken check rows none touchFault now token).2 = some w
        ∧ { w with LastUsedAt := none } = { v with LastUsedAt := none } := by
  refine ⟨VerifyToken_ok hlen hfirst hcheck, ?_⟩
  unfold VerifyToken
  have : ¬ ((TrimSpace token).length < apiTokenPrefixLength) := by
    unfold apiTokenPrefixLength
    omega
  simp only [this, if_false]
  unfold dbFirstEnabledByPrefix
  simp only [show apiTokenPrefixLength = 8 from rfl, hfirst, hcheck]
  simp only [Bool.true_eq_false, if_false]
  unfold dbUpdateWhereId
  cases touchFault with
  | some e => exact ⟨v, hfirst, rfl⟩
  | none =>
    simp only
    rw [firstWhere_map rows (by intro r; split <;> rfl) (by intro r; split <;> rfl), hfirst]
    refine ⟨_, rfl, ?_⟩
    simp

theorem VerifyTokenSeq_cons (check : GoString → GoString → Bool) (token : GoString)
    (rows : List APIUser) (p : Option GoError × Option GoError × Int)
    (rest : List (Option GoError × Option GoError × Int)) :
    VerifyTokenSeq check token rows (p :: rest)
      = ((VerifyToken check rows p.1 p.2.1 p.2.2 token).1
            :: (VerifyTokenSeq check token (VerifyToken check rows p.1 p.2.1 p.2.2 token).2 rest).1,
          (VerifyTokenSeq check token (VerifyToken check rows p.1 p.2.1 p.2.2 token).2 rest).2) :=
  rfl

/-- Presenting a token again and again on a table whose first enabled row with the
token's prefix passes the hash check: every presentation returns that row, up to
its `LastUsedAt`. -/
theorem VerifyTokenSeq_ok {check : GoString → GoString → Bool} {token : GoString} {u : APIUser}
    (hlen : 8 ≤ (TrimSpace token).length) (hcheck : check u.TokenHash (TrimSpace token) = true)
    (pres : List (Option GoError × Option GoError × Int)) :
    ∀ (rows : List APIUser) (v : APIUser),
      firstWhere (fun r => decide (r.TokenPrefix = (TrimSpace token).take 8) && r.Enabled) rows
        = some v →
      { v with LastUsedAt := none } = { u with LastUsedAt := none } →
      (∀ p ∈ pres, p.1 = none) →
      (VerifyTokenSeq check token rows pres).1.length = pres.length
      ∧ ∀ res ∈ (VerifyTokenSeq check token rows pres).1,
          ∃ w, res = .ok w ∧ { w with LastUsedAt := none } = { u with LastUsedAt := none } := by
  induction pres with
  | nil =>
    intro rows v _ _ _
    exact ⟨rfl, fun res hres => by cases hres⟩
  | cons p rest ih =>
    intro rows v hfirst hv hlook
    have hp : p.1 = none := hlook p (List.mem_cons_self _ _)
    have hhash : v.TokenHash = u.TokenHash := by
      have := congrArg APIUser.TokenHash hv
      exact this
    obtain ⟨h1, w, h2, h3⟩ := @VerifyToken_step check rows p.2.1 p.2.2 token v hlen hfirst
      (by rw [hhash]; exact hcheck)
    rw [VerifyTokenSeq_cons, hp]
    obtain ⟨ihl, ihr⟩ := ih _ w h2 (h3.trans hv) (fun x hx => hlook x (List.mem_cons_of_mem _ hx))
    refine ⟨by simp only [List.length_cons, ihl], ?_⟩
    intro res hres
    rcases List.mem_cons.mp hres with rfl | hres
    · exact ⟨v, h1, hv⟩
    · exact ihr res hres

/-- C6, amended. Let `CreateUser` succeed and return `(u, token)`, where the random
sequence is 48 bytes of the `random.Seq` alphabet and the hash check accepts a
secret against its own hash. If no enabled identity already in the store has the
token's 8-byte prefix, then `VerifyToken(token)` on the resulting store returns
`u`, and every further presentation whose store lookup reports no error returns
that identity again (with only `LastUsedAt` changed). -/
theorem create_verify_roundtrip (seq : GoString) (hashFn : GoString → Except GoError GoString)
    (check : GoString → GoString → Bool) (rows rows1 : List APIUser) (fault : Option GoError)
    (name : GoString) (rate : Int) (u : APIUser) (token : GoString)
    (pres : List (Option GoError × Option GoError × Int))
    (hseq : isSeq apiTokenLength seq = true)
    (hhash : ∀ t h, hashFn t = .ok h → check h t = true)
    (hcreate : CreateUser seq hashFn rows fault name rate = (.ok (u, token), rows1))
    (hfree : ∀ r ∈ rows, r.Enabled = true → r.TokenPrefix ≠ token.take 8)
    (hlook : ∀ p ∈ pres, p.1 = none) :
    (∀ touchFault now, (VerifyToken check rows1 none touchFault now token).1 = .ok u)
    ∧ (VerifyTokenSeq check token rows1 pres).1.length = pres.length
    ∧ ∀ res ∈ (VerifyTokenSeq check token rows1 pres).1,
        ∃ w, res = .ok w ∧ w.Id = u.Id ∧ { w with LastUsedAt := none } = u := by
  obtain ⟨hh, htok, hrows, hpfx, hen, hlast, _⟩ := CreateUser_ok hcreate
  subst htok
  obtain ⟨htrim, hlen48⟩ := isSeq_trim hseq
  have hlen : 8 ≤ (TrimSpace token).length := by rw [htrim]; omega
  have hcheck : check u.TokenHash (TrimSpace token) = true := by
    rw [htrim]
    exact hhash _ _ hh
  have hfirst : firstWhere (fun r => decide (r.TokenPrefix = (TrimSpace token).take 8) && r.Enabled)
      rows1 = some u := by
    rw [hrows, htrim, firstWhere_append_none]
    · exact firstWhere_singleton (by simp [hpfx, hen])
    · intro r hr
      cases he : r.Enabled with
      | false => simp
      | true => simp [hfree r hr he]
  have hu : { u with LastUsedAt := none } = u := by
    cases u
    simp only [APIUser.mk.injEq, true_and]
    exact hlast.symm
  refine ⟨fun tf now => VerifyToken_ok hlen hfirst hcheck, ?_⟩
  obtain ⟨h1, h2⟩ := VerifyTokenSeq_ok hlen hcheck pres rows1 u hfirst rfl hlook
  refine ⟨h1, ?_⟩
  intro res hres
  obtain ⟨w, hw, hw2⟩ := h2 res hres
  rw [hu] at hw2
  exact ⟨w, hw, by rw [← hw2], hw2⟩

/-- C6 as stated fails: the store holds the enabled `exampleUser`, `CreateUser` draws
a secret with the same first 8 bytes and succeeds, and `VerifyToken` of the returned
secret on the resulting store is `ErrInvalidAPIToken`. -/
theorem create_verify_counterexample :
    (∃ u, (CreateUser exampleToken3 exampleHash [exampleUser] none [98] 0).1
        = .ok (u, exampleToken3))
    ∧ (VerifyToken exampleCheck (CreateUser exampleToken3 exampleHash [exampleUser] none [98] 0).2
        none none 7 exampleToken3).1 = .error GoError.ErrInvalidAPIToken :=
  ⟨⟨_, rfl⟩, by decide⟩

/-- C6, amended, at a concrete store: a second identity is created next to
`exampleUser` and its secret is presented three times. -/
theorem create_verify_roundtrip_witness :
    (isSeq apiTokenLength exampleToken2 = true
      ∧ (∀ t h, exampleHash t = .ok h → exampleCheck h t = true)
      ∧ (∀ r ∈ [exampleUser], r.Enabled = true → r.TokenPrefix ≠ exampleToken2.take 8)
      ∧ ∀ p ∈ [(none, none, 7), (none, some (GoError.external 1), 8), (none, none, (9 : Int))],
          p.1 = (none : Option GoError))
    ∧ ∀ res ∈ (VerifyTokenSeq exampleCheck exampleToken2
          (CreateUser exampleToken2 exampleHash [exampleUser] none [98] 5).2
          [(none, none, 7), (none, some (GoError.external 1), 8), (none, none, 9)]).1,
        ∃ w, res = .ok w ∧ w.Id = 2
          ∧ { w with LastUsedAt := none }
              = { Id := 2, Name := [98], TokenPrefix := exampleToken2.take 8,
                  TokenHash := 36 :: exampleToken2, RateLimitPerMinute := 5, Enabled := true,
                  LastUsedAt := none } :=
  ⟨⟨by decide, fun t h hh => by cases hh; simp [exampleCheck], by decide, by decide⟩,
    (create_verify_roundtrip exampleToken2 exampleHash exampleCheck [exampleUser] _ none [98] 5
      _ exampleToken2 [(none, none, 7), (none, some (GoError.external 1), 8), (none, none, 9)]
      (by decide) (fun t h hh => by cases hh; simp [exampleCheck]) rfl (by decide)
      (by decide)).2.2⟩

/-- What a successful `RotateToken` has done. -/
theorem RotateToken_ok {seq : GoString} {hashFn : GoString → Except GoError GoString}
    {rows rows1 : List APIUser} {fault : Option GoError} {id : Int} {token : GoString}
    (h : RotateToken seq hashFn rows fault id = (.ok token, rows1)) :
    ∃ hash, hashFn seq = .ok hash ∧ token = seq
      ∧ rows1 = rows.map (fun r =>
          if r.Id = id then { r with TokenPrefix := seq.take 8, TokenHash := hash } else r) := by
  unfold RotateToken generateToken at h
  simp only at h
  cases hh : hashFn seq with
  | error e => rw [hh] at h; cases h
  | ok hash =>
    rw [hh] at h
    simp only at h
    unfold dbUpdateWhereId at h
    cases fault with
    | some e => cases h
    | none =>
      simp only [Prod.mk.injEq, Except.ok.injEq] at h
      exact ⟨hash, rfl, h.1.symm, h.2.symm⟩

/-- C7, amended. Let `RotateToken(id)` return a new token without error, where the
random sequence is 48 bytes of the `random.Seq` alphabet and the hash check accepts
a secret against its own hash. (1) If the store holds an enabled identity with that
id and no other enabled identity has the new token's 8-byte prefix, `VerifyToken`
of the new token on the resulting store returns an identity with that id, when the
store lookup reports no error. (2) `VerifyToken` of a previous secret on the
resulting store is `ErrInvalidAPIToken` whenever the new hash does not accept that
secret and no other enabled identity with its prefix has a hash that accepts it. -/
theorem rotate_verify (seq : GoString) (hashFn : GoString → Except GoError GoString)
    (check : GoString → GoString → Bool) (rows rows1 : List APIUser) (fault : Option GoError)
    (id : Int) (token : GoString)
    (hseq : isSeq apiTokenLength seq = true)
    (hhash : ∀ t h, hashFn t = .ok h → check h t = true)
    (hrot : RotateToken seq hashFn rows fault id = (.ok token, rows1)) :
    ((∃ r ∈ rows, r.Id = id ∧ r.Enabled = true) →
      (∀ r ∈ rows, r.Id ≠ id → r.Enabled = true → r.TokenPrefix ≠ token.take 8) →
      ∀ touchFault now, ∃ v, (VerifyToken check rows1 none touchFault now token).1 = .ok v
        ∧ v.Id = id)
    ∧ (∀ old : GoString,
        (∀ h, hashFn seq = .ok h → check h (TrimSpace old) = false) →
        (∀ r ∈ rows, r.Id ≠ id → r.Enabled = true → r.TokenPrefix = (TrimSpace old).take 8 →
          check r.TokenHash (TrimSpace old) = false) →
        ∀ lookupFault touchFault now,
          (VerifyToken check rows1 lookupFault touchFault now old).1
            = .error GoError.ErrInvalidAPIToken) := by
  obtain ⟨hash, hh, htok, hrows⟩ := RotateToken_ok hrot
  subst htok
  obtain ⟨htrim, hlen48⟩ := isSeq_trim hseq
  constructor
  · rintro ⟨r0, hr0, hid0, hen0⟩ hfree touchFault now
    have hnot : firstWhere (fun r => decide (r.TokenPrefix = (TrimSpace token).take 8) && r.Enabled)
        rows1 ≠ none := by
      intro hnone
      have := firstWhere_none.mp hnone
        (if r0.Id = id then { r0 with TokenPrefix := token.take 8, TokenHash := hash } else r0)
        (by rw [hrows]; exact List.mem_map_of_mem _ hr0)
      rw [if_pos hid0, htrim] at this
      simp [hen0] at this
    cases hf : firstWhere (fun r => decide (r.TokenPrefix = (TrimSpace token).take 8) && r.Enabled)
        rows1 with
    | none => exact absurd hf hnot
    | some v =>
      obtain ⟨hmem, hpv⟩ := firstWhere_some hf
      simp only [Bool.and_eq_true, decide_eq_true_eq, htrim] at hpv
      rw [hrows] at hmem
      obtain ⟨r1, hr1, hv⟩ := List.mem_map.mp hmem
      by_cases hid1 : r1.Id = id
      · rw [if_pos hid1] at hv
        refine ⟨v, VerifyToken_ok (by rw [htrim]; omega) hf ?_, by rw [← hv]; exact hid1⟩
        rw [htrim, ← hv]
        exact hhash _ _ hh
      · rw [if_neg hid1] at hv
        subst hv
        exact absurd hpv.1 (hfree r1 hr1 hid1 hpv.2)
  · intro old hnew hothers lookupFault touchFault now
    apply VerifyToken_all_rejected lookupFault touchFault now
    intro r hr hpfx
    rw [hrows] at hr
    obtain ⟨r1, hr1, hv⟩ := List.mem_map.mp hr
    by_cases hid1 : r1.Id = id
    · rw [if_pos hid1] at hv
      right
      rw [← hv]
      exact hnew hash hh
    · rw [if_neg hid1] at hv
      subst hv
      cases he : r1.Enabled with
      | false => exact Or.inl rfl
      | true => exact Or.inr (hothers r1 hr1 hid1 he hpfx)

/-- C7 as stated fails: no identity has the id 99, `RotateToken(99)` still returns a
new token without error, and `VerifyToken` of that token is `ErrInvalidAPIToken`. -/
theorem rotate_verify_counterexample :
    (RotateToken exampleToken2 exampleHash [exampleUser] none 99).1 = .ok exampleToken2
    ∧ (VerifyToken exampleCheck (RotateToken exampleToken2 exampleHash [exampleUser] none 99).2
        none none 7 exampleToken2).1 = .error GoError.ErrInvalidAPIToken :=
  ⟨rfl, by decide⟩

/-- C7, amended, at a concrete store: the secret of `exampleUser` is rotated from
`exampleToken` to `exampleToken2`. -/
theorem rotate_verify_witness :
    (isSeq apiTokenLength exampleToken2 = true
      ∧ (∀ t h, exampleHash t = .ok h → exampleCheck h t = true)
      ∧ (RotateToken exampleToken2 exampleHash [exampleUser] none 1).1 = .ok exampleToken2
      ∧ (∃ r ∈ [exampleUser], r.Id = 1 ∧ r.Enabled = true)
      ∧ (∀ r ∈ [exampleUser], r.Id ≠ 1 → r.Enabled = true →
          r.TokenPrefix ≠ exampleToken2.take 8))
    ∧ (VerifyToken exampleCheck [exampleUser] none none 7 exampleToken).1 = .ok exampleUser
    ∧ (∃ v, (VerifyToken exampleCheck
          (RotateToken exampleToken2 exampleHash [exampleUser] none 1).2 none none 7
          exampleToken2).1 = .ok v ∧ v.Id = 1)
    ∧ (VerifyToken exampleCheck (RotateToken exampleToken2 exampleHash [exampleUser] none 1).2
          none none 7 exampleToken).1 = .error GoError.ErrInvalidAPIToken :=
  ⟨⟨by decide, fun t h hh => by cases hh; simp [exampleCheck], rfl, by decide, by decide⟩,
    by decide,
    (rotate_verify exampleToken2 exampleHash exampleCheck [exampleUser] _ none 1 exampleToken2
      (by decide) (fun t h hh => by cases hh; simp [exampleCheck]) rfl).1 (by decide) (by decide)
      none 7,
    (rotate_verify exampleToken2 exampleHash exampleCheck [exampleUser] _ none 1 exampleToken2
      (by decide) (fun t h hh => by cases hh; simp [exampleCheck]) rfl).2 exampleToken
      (fun h hh => by cases hh; decide) (by decide) none none 7⟩

/-! ## Lemmas on UTF-8 decoding -/

theorem first_spec {b sz lo hi : Nat} (h : first b = some (sz, lo, hi)) :
    (sz = 2 ∨ sz = 3 ∨ sz = 4) ∧ 0x80 ≤ lo ∧ hi ≤ 0xBF ∧ 0xC2 ≤ b ∧ b ≤ 0xF4 := by
  unfold first at h
  repeat' split at h
  all_goals first
    | (cases h; done)
    | (simp only [Option.some.injEq, Prod.mk.injEq] at h
       obtain ⟨rfl, rfl, rfl⟩ := h
       omega)

theorem decode_ascii {b : Nat} (t : GoString) (h : b < 0x80) :
    DecodeRuneInString (b :: t) = (b, 1) := by
  simp [DecodeRuneInString, RuneSelf, h]

theorem IsSpace_RuneError : IsSpace RuneError = false := by decide

theorem IsSpace_ascii {b : Nat} (h : b < 0x80) : IsSpace b = asciiSpace b := by
  unfold IsSpace asciiSpace
  have : b ≤ 0xFF := by omega
  simp only [this, if_true]
  congr 1
  apply propext
  constructor
  · rintro (h1 | h1 | h1 | h1 | h1 | h1 | h1 | h1) <;> omega
  · rintro (h1 | h1 | h1 | h1 | h1 | h1) <;> omega

/-- The width of a decoded rune is 1 when the byte after a non-ASCII first byte is
missing or starts a rune. -/
theorem decode_width_one {b : Nat} {t : GoString} (hb : 0x80 ≤ b)
    (ht : t = [] ∨ RuneStart (t.getD 0 0) = true) : (DecodeRuneInString (b :: t)).2 = 1 := by
  unfold DecodeRuneInString
  have h0 : ¬ (b < RuneSelf) := by unfold RuneSelf; omega
  simp only [h0, if_false]
  cases hf : first b with
  | none => rfl
  | some p =>
    obtain ⟨sz, lo, hi⟩ := p
    obtain ⟨hsz, hlo, hhi, _, _⟩ := first_spec hf
    simp only
    rcases ht with rfl | ht
    · have : ([] : GoString).length + 1 < sz := by simp; omega
      rw [if_pos this]
    · unfold RuneStart at ht
      simp only [Bool.not_eq_true', Bool.and_eq_false_iff, decide_eq_false_iff_not] at ht
      have hs1 : t.getD 0 0 < lo ∨ hi < t.getD 0 0 := by omega
      by_cases hlen : t.length + 1 < sz
      · rw [if_pos hlen]
      · rw [if_neg hlen]
        simp only [hs1, if_true]

theorem decode_width_pos {s : GoString} (h : s ≠ []) : 1 ≤ (DecodeRuneInString s).2 := by
  cases s with
  | nil => exact absurd rfl h
  | cons b t =>
    unfold DecodeRuneInString
    simp only
    repeat' split
    all_goals simp only [le_refl, Nat.one_le_ofNat]

theorem decode_width_le (s : GoString) : (DecodeRuneInString s).2 ≤ s.length := by
  cases s with
  | nil => simp [DecodeRuneInString]
  | cons b t =>
    unfold DecodeRuneInString
    simp only
    split
    · simp
    · cases hf : first b with
      | none => simp
      | some p =>
        obtain ⟨sz, lo, hi⟩ := p
        obtain ⟨hsz, _⟩ := first_spec hf
        simp only [List.length_cons]
        repeat' split
        all_goals simp only
        all_goals omega

theorem getD_take {t : GoString} {i m : Nat} (h : i < m) (d : Nat) :
    (t.take m).getD i d = t.getD i d := by
  simp [List.getD_eq_getElem?_getD, List.getElem?_take, h]

/-- The shape of a string whose first rune is decoded with a width of at least 2. -/
theorem decode_multi {b0 : Nat} {t : GoString} {r n : Nat}
    (h : DecodeRuneInString (b0 :: t) = (r, n)) (hn : 2 ≤ n) :
    ∃ lo hi, first b0 = some (n, lo, hi) ∧ n ≤ t.length + 1
      ∧ lo ≤ t.getD 0 0 ∧ t.getD 0 0 ≤ hi
      ∧ (3 ≤ n → 0x80 ≤ t.getD 1 0 ∧ t.getD 1 0 ≤ 0xBF)
      ∧ (4 ≤ n → 0x80 ≤ t.getD 2 0 ∧ t.getD 2 0 ≤ 0xBF) := by
  unfold DecodeRuneInString at h
  simp only at h
  by_cases h0 : b0 < RuneSelf
  · rw [if_pos h0] at h
    simp only [Prod.mk.injEq] at h
    omega
  · rw [if_neg h0] at h
    cases hf : first b0 with
    | none =>
      rw [hf] at h
      simp only [Prod.mk.injEq] at h
      omega
    | some p =>
      obtain ⟨sz, lo, hi⟩ := p
      obtain ⟨hsz, hlo, hhi, _, _⟩ := first_spec hf
      rw [hf] at h
      simp only at h
      by_cases hlen : t.length + 1 < sz
      · rw [if_pos hlen] at h
        simp only [Prod.mk.injEq] at h
        omega
      · rw [if_neg hlen] at h
        by_cases h1 : t.getD 0 0 < lo ∨ hi < t.getD 0 0
        · rw [if_pos h1] at h
          simp only [Prod.mk.injEq] at h
          omega
        · rw [if_neg h1] at h
          by_cases hs2 : sz ≤ 2
          · rw [if_pos hs2] at h
            simp only [Prod.mk.injEq] at h
            have : sz = n := by omega
            subst this
            exact ⟨lo, hi, rfl, by omega, by omega, by omega, by omega, by omega⟩
          · rw [if_neg hs2] at h
            by_cases h2 : t.getD 1 0 < 0x80 ∨ 0xBF < t.getD 1 0
            · rw [if_pos h2] at h
              simp only [Prod.mk.injEq] at h
              omega
            · rw [if_neg h2] at h
              by_cases hs3 : sz ≤ 3
              · rw [if_pos hs3] at h
                simp only [Prod.mk.injEq] at h
                have : sz = n := by omega
                subst this
                exact ⟨lo, hi, rfl, by omega, by omega, by omega, fun _ => by omega, by omega⟩
              · rw [if_neg hs3] at h
                by_cases h3 : t.getD 2 0 < 0x80 ∨ 0xBF < t.getD 2 0
                · rw [if_pos h3] at h
                  simp only [Prod.mk.injEq] at h
                  omega
                · rw [if_neg h3] at h
                  simp only [Prod.mk.injEq] at h
                  have : sz = n := by omega
                  subst this
                  exact ⟨lo, hi, rfl, by omega, by omega, by omega, fun _ => by omega,
                    fun _ => by omega⟩

/-- Decoding reads only the bytes of the first rune: two strings that agree on the
first four bytes, both long enough for the sequence that the first byte announces,
decode alike. -/
theorem decode_congr {b0 : Nat} {t u : GoString} {n lo hi : Nat}
    (hf : first b0 = some (n, lo, hi)) (ht : n ≤ t.length + 1) (hu : n ≤ u.length + 1)
    (h0 : t.getD 0 0 = u.getD 0 0) (h1 : 3 ≤ n → t.getD 1 0 = u.getD 1 0)
    (h2 : 4 ≤ n → t.getD 2 0 = u.getD 2 0) :
    DecodeRuneInString (b0 :: t) = DecodeRuneInString (b0 :: u) := by
  obtain ⟨hsz, _⟩ := first_spec hf
  unfold DecodeRuneInString
  simp only [hf]
  have e1 : ¬ (t.length + 1 < n) := by omega
  have e2 : ¬ (u.length + 1 < n) := by omega
  simp only [e1, e2, if_false, h0]
  rcases hsz with rfl | rfl | rfl
  · simp
  · rw [h1 (le_refl _)]
    simp only [show ¬ ((3 : Nat) ≤ 2) by omega, le_refl, if_true, if_false]
  · rw [h1 (by omega), h2 (le_refl _)]

/-- A rune of width at least 2 that fills a prefix of a string is the first rune of
the string. -/
theorem decode_of_take {s : GoString} {r k : Nat} (hk : 2 ≤ k)
    (h : DecodeRuneInString (s.take k) = (r, k)) : DecodeRuneInString s = (r, k) := by
  cases s with
  | nil =>
    simp [DecodeRuneInString] at h
    omega
  | cons b0 t =>
    obtain ⟨m, rfl⟩ : ∃ m, k = m + 1 := ⟨k - 1, by omega⟩
    rw [List.take_succ_cons] at h
    obtain ⟨lo, hi, hf, hlen, _, _, _, _⟩ := decode_multi h hk
    rw [← h]
    have hl : (t.take m).length ≤ t.length := by simp
    have hm : (t.take m).length ≤ m := by simp
    symm
    apply decode_congr hf hlen (by omega)
    · exact getD_take (by omega) 0
    · intro h3; exact getD_take (by omega) 0
    · intro h4; exact getD_take (by omega) 0

/-- A rune decoded with width 1 is an ASCII byte or `RuneError`. -/
theorem decode_one {b0 : Nat} {t : GoString} {r : Nat}
    (h : DecodeRuneInString (b0 :: t) = (r, 1)) : (b0 < 0x80 ∧ r = b0) ∨ r = RuneError := by
  unfold DecodeRuneInString at h
  simp only at h
  by_cases h0 : b0 < RuneSelf
  · rw [if_pos h0] at h
    simp only [Prod.mk.injEq, and_true] at h
    exact Or.inl ⟨h0, h.symm⟩
  · rw [if_neg h0] at h
    right
    cases hf : first b0 with
    | none =>
      rw [hf] at h
      simp only [Prod.mk.injEq, and_true] at h
      exact h.symm
    | some p =>
      obtain ⟨sz, lo, hi⟩ := p
      rw [hf] at h
      simp only at h
      repeat' split at h
      all_goals first
        | (simp only [Prod.mk.injEq, and_true] at h; exact h.symm)
        | (simp only [Prod.mk.injEq] at h; omega)

theorem isSpaceEnc_iff {e : GoString} :
    isSpaceEnc e = true ↔
      e ≠ [] ∧ (DecodeRuneInString e).2 = e.length ∧ IsSpace (DecodeRuneInString e).1 = true := by
  unfold isSpaceEnc
  simp [and_assoc]

/-- An encoded white-space rune is one ASCII white-space byte or a multi-byte
sequence. -/
theorem isSpaceEnc_cases {e : GoString} (h : isSpaceEnc e = true) :
    (∃ b, e = [b] ∧ b < 0x80 ∧ asciiSpace b = true) ∨ (2 ≤ e.length ∧ ∃ b0 t, e = b0 :: t
      ∧ 0xC2 ≤ b0 ∧ DecodeRuneInString (b0 :: t) = ((DecodeRuneInString e).1, e.length)) := by
  obtain ⟨hne, hw, hsp⟩ := isSpaceEnc_iff.mp h
  cases e with
  | nil => exact absurd rfl hne
  | cons b0 t =>
    by_cases hlen : (b0 :: t).length = 1
    · left
      have ht : t = [] := by
        cases t with
        | nil => rfl
        | cons c u => simp at hlen
      subst ht
      have hd : DecodeRuneInString [b0] = ((DecodeRuneInString [b0]).1, 1) := by
        rw [← hlen, ← hw]
      rcases decode_one hd with ⟨hb, hr⟩ | hr
      · rw [hr, IsSpace_ascii hb] at hsp
        exact ⟨b0, rfl, hb, hsp⟩
      · rw [hr, IsSpace_RuneError] at hsp
        cases hsp
    · right
      have h2 : 2 ≤ (b0 :: t).length := by
        simp only [List.length_cons] at hlen ⊢
        omega
      have hd : DecodeRuneInString (b0 :: t)
          = ((DecodeRuneInString (b0 :: t)).1, (b0 :: t).length) := by
        rw [← hw]
      obtain ⟨lo, hi, hf, _⟩ := decode_multi hd h2
      obtain ⟨_, _, _, hb, _⟩ := first_spec hf
      exact ⟨h2, b0, t, rfl, hb, hd⟩

/-- Decoding a string that begins with an encoded white-space rune yields that rune. -/
theorem isSpaceEnc_append {e : GoString} (h : isSpaceEnc e = true) (t : GoString) :
    DecodeRuneInString (e ++ t) = DecodeRuneInString e := by
  rcases isSpaceEnc_cases h with ⟨b, rfl, hb, _⟩ | ⟨h2, b0, u, rfl, _, hd⟩
  · rw [List.singleton_append, decode_ascii _ hb, decode_ascii _ hb]
  · rw [hd]
    apply decode_of_take h2
    rw [List.take_left' rfl]
    exact hd

theorem getD_append_at (t u : GoString) (k i : Nat) (h : k = t.length + i) :
    (t ++ u).getD k 0 = u.getD i 0 := by
  subst h
  simp [List.getD_eq_getElem?_getD, List.getElem?_append_right]

theorem lastRuneStart_two (t : GoString) {b0 : Nat} (b1 : Nat) (h0 : RuneStart b0 = true) :
    lastRuneStart (t ++ [b0, b1]) = t.length := by
  unfold lastRuneStart
  simp only [List.length_append, List.length_cons, List.length_nil]
  rw [getD_append_at t [b0, b1] _ 0 (by omega)]
  simp [h0]

theorem lastRuneStart_three (t : GoString) {b0 b1 : Nat} (b2 : Nat) (h0 : RuneStart b0 = true)
    (h1 : RuneStart b1 = false) : lastRuneStart (t ++ [b0, b1, b2]) = t.length := by
  unfold lastRuneStart
  simp only [List.length_append, List.length_cons, List.length_nil]
  rw [getD_append_at t [b0, b1, b2] _ 1 (by omega), getD_append_at t [b0, b1, b2] _ 0 (by omega)]
  simp [h0, h1]

theorem lastRuneStart_four (t : GoString) {b0 b1 b2 : Nat} (b3 : Nat) (h0 : RuneStart b0 = true)
    (h1 : RuneStart b1 = false) (h2 : RuneStart b2 = false) :
    lastRuneStart (t ++ [b0, b1, b2, b3]) = t.length := by
  unfold lastRuneStart
  simp only [List.length_append, List.length_cons, List.length_nil]
  rw [getD_append_at t [b0, b1, b2, b3] _ 2 (by omega),
    getD_append_at t [b0, b1, b2, b3] _ 1 (by omega),
    getD_append_at t [b0, b1, b2, b3] _ 0 (by omega)]
  simp [h0, h1, h2]

theorem RuneStart_false_of_range {b : Nat} (h1 : 0x80 ≤ b) (h2 : b ≤ 0xBF) :
    RuneStart b = false := by
  simp [RuneStart, h1, h2]

theorem RuneStart_of_lead {b : Nat} (h : 0xC2 ≤ b) : RuneStart b = true := by
  unfold RuneStart
  simp only [Bool.not_eq_true', Bool.and_eq_false_iff, decide_eq_false_iff_not]
  omega

/-- A multi-byte sequence that decodes as one whole rune: where `lastRuneStart` finds
its first byte, and that its last byte is not ASCII. -/
theorem lastRuneStart_of_whole (t : GoString) {b0 : Nat} {u : GoString} {r : Nat}
    (hd : DecodeRuneInString (b0 :: u) = (r, (b0 :: u).length)) (h2 : 2 ≤ (b0 :: u).length) :
    lastRuneStart (t ++ b0 :: u) = t.length
      ∧ 0x80 ≤ (t ++ b0 :: u).getD ((t ++ b0 :: u).length - 1) 0 := by
  obtain ⟨lo, hi, hf, _, hl1, hl2, h3, h4⟩ := decode_multi hd h2
  obtain ⟨hsz, hlo, hhi, hb, _⟩ := first_spec hf
  have hs0 := RuneStart_of_lead hb
  simp only [List.length_cons] at hsz h3 h4 h2
  match u, hsz, hl1, hl2, h3, h4 with
  | [b1], _, hl1, hl2, _, _ =>
    simp only [List.getD_cons_zero] at hl1 hl2
    refine ⟨lastRuneStart_two t b1 hs0, ?_⟩
    rw [getD_append_at t [b0, b1] _ 1 (by simp)]
    simp only [List.getD_cons_succ, List.getD_cons_zero]
    omega
  | [b1, b2], _, hl1, hl2, h3, _ =>
    simp only [List.getD_cons_zero, List.getD_cons_succ, List.length_cons, List.length_nil] at hl1 hl2 h3
    have := h3 (by omega)
    refine ⟨lastRuneStart_three t b2 hs0 (RuneStart_false_of_range (by omega) (by omega)), ?_⟩
    rw [getD_append_at t [b0, b1, b2] _ 2 (by simp)]
    simp only [List.getD_cons_succ, List.getD_cons_zero]
    omega
  | [b1, b2, b3], _, hl1, hl2, h3, h4 =>
    simp only [List.getD_cons_zero, List.getD_cons_succ, List.length_cons, List.length_nil] at hl1 hl2 h3 h4
    have := h3 (by omega)
    have := h4 (by omega)
    refine ⟨lastRuneStart_four t b3 hs0 (RuneStart_false_of_range (by omega) (by omega))
      (RuneStart_false_of_range (by omega) (by omega)), ?_⟩
    rw [getD_append_at t [b0, b1, b2, b3] _ 3 (by simp)]
    simp only [List.getD_cons_succ, List.getD_cons_zero]
    omega
  | [], hsz, _, _, _, _ => simp at h2
  | _ :: _ :: _ :: _ :: _, hsz, _, _, _, _ =>
    simp only [List.length_cons] at hsz
    omega

/-- Decoding backward from the end of a string that ends with an encoded
white-space rune yields that rune. -/
theorem isSpaceEnc_last {e : GoString} (h : isSpaceEnc e = true) (t : GoString) :
    DecodeLastRuneInString (t ++ e) = DecodeRuneInString e := by
  rcases isSpaceEnc_cases h with ⟨b, rfl, hb, _⟩ | ⟨h2, b0, u, rfl, _, hd⟩
  · unfold DecodeLastRuneInString
    simp only [List.length_append, List.length_singleton, Nat.add_one_ne_zero, if_false,
      Nat.add_sub_cancel]
    rw [getD_append_at t [b] _ 0 (by simp)]
    simp only [List.getD_cons_zero]
    rw [if_pos (by unfold RuneSelf; omega), decode_ascii _ hb]
  · obtain ⟨hs, hl⟩ := lastRuneStart_of_whole t hd h2
    unfold DecodeLastRuneInString
    simp only
    have hne : ¬ ((t ++ b0 :: u).length = 0) := by simp
    rw [if_neg hne, if_neg (by unfold RuneSelf; omega), hs, List.drop_left, hd]
    simp

theorem lastRuneStart_lt {w : GoString} (h : w ≠ []) : lastRuneStart w < w.length := by
  have : 0 < w.length := List.length_pos.mpr h
  unfold lastRuneStart
  simp only
  repeat' split
  all_goals omega

theorem take_append_last {w : GoString} (h : w ≠ []) :
    w = w.take (w.length - 1) ++ [w.getD (w.length - 1) 0] := by
  have hl : 0 < w.length := List.length_pos.mpr h
  conv_lhs => rw [← List.take_append_drop (w.length - 1) w]
  congr 1
  rw [List.drop_eq_getElem_cons (by omega)]
  rw [List.getD_eq_getElem _ _ (by omega)]
  have : w.length - 1 + 1 = w.length := by omega
  rw [this, List.drop_length]

/-- The result of decoding backward: width 1, or a whole multi-byte rune at the end. -/
theorem decodeLast_cases {w : GoString} (h : w ≠ []) :
    (DecodeLastRuneInString w).2 = 1
    ∨ (2 ≤ (DecodeLastRuneInString w).2 ∧ (DecodeLastRuneInString w).2 ≤ w.length
        ∧ DecodeRuneInString (w.drop (w.length - (DecodeLastRuneInString w).2))
            = DecodeLastRuneInString w) := by
  have hl : 0 < w.length := List.length_pos.mpr h
  unfold DecodeLastRuneInString
  simp only
  rw [if_neg (by omega)]
  by_cases h1 : w.getD (w.length - 1) 0 < RuneSelf
  · rw [if_pos h1]
    exact Or.inl rfl
  · rw [if_neg h1]
    by_cases h2 : lastRuneStart w + (DecodeRuneInString (w.drop (lastRuneStart w))).2 ≠ w.length
    · rw [if_pos h2]
      exact Or.inl rfl
    · rw [if_neg h2]
      simp only [ne_eq, not_not] at h2
      have hpos : 1 ≤ (DecodeRuneInString (w.drop (lastRuneStart w))).2 := by
        apply decode_width_pos
        intro hd
        have := List.drop_eq_nil_iff.mp hd
        have := lastRuneStart_lt h
        omega
      by_cases h3 : (DecodeRuneInString (w.drop (lastRuneStart w))).2 = 1
      · exact Or.inl h3
      · right
        refine ⟨by omega, by omega, ?_⟩
        have : w.length - (DecodeRuneInString (w.drop (lastRuneStart w))).2 = lastRuneStart w := by
          omega
        rw [this]

/-- A white-space rune decoded backward is an encoded white-space rune at the end. -/
theorem decodeLast_space {w : GoString}
    (hs : IsSpace (DecodeLastRuneInString w).1 = true) :
    ∃ t e, w = t ++ e ∧ isSpaceEnc e = true ∧ e.length = (DecodeLastRuneInString w).2 := by
  by_cases hne : w = []
  · subst hne
    simp [DecodeLastRuneInString, IsSpace_RuneError] at hs
  have hl : 0 < w.length := List.length_pos.mpr hne
  unfold DecodeLastRuneInString at hs ⊢
  simp only at hs ⊢
  rw [if_neg (by omega)] at hs ⊢
  by_cases h1 : w.getD (w.length - 1) 0 < RuneSelf
  · rw [if_pos h1] at hs ⊢
    refine ⟨w.take (w.length - 1), [w.getD (w.length - 1) 0], take_append_last hne, ?_, rfl⟩
    rw [isSpaceEnc_iff, decode_ascii _ h1]
    exact ⟨by simp, rfl, hs⟩
  · rw [if_neg h1] at hs ⊢
    by_cases h2 : lastRuneStart w + (DecodeRuneInString (w.drop (lastRuneStart w))).2 ≠ w.length
    · rw [if_pos h2] at hs
      rw [IsSpace_RuneError] at hs
      cases hs
    · rw [if_neg h2] at hs ⊢
      simp only [ne_eq, not_not] at h2
      refine ⟨w.take (lastRuneStart w), w.drop (lastRuneStart w),
        (List.take_append_drop _ _).symm, ?_, ?_⟩
      · rw [isSpaceEnc_iff]
        refine ⟨?_, ?_, hs⟩
        · intro hd
          have := List.drop_eq_nil_iff.mp hd
          have := lastRuneStart_lt hne
          omega
        · rw [List.length_drop]
          omega
      · rw [List.length_drop]
        omega

theorem isSpaceEnc_head {e : GoString} (h : isSpaceEnc e = true) :
    RuneStart (e.getD 0 0) = true ∧ (e.getD 0 0 < 0x80 → asciiSpace (e.getD 0 0) = true) := by
  rcases isSpaceEnc_cases h with ⟨b, rfl, hb, hsp⟩ | ⟨h2, b0, u, rfl, hb, hd⟩
  · simp only [List.getD_cons_zero]
    refine ⟨?_, fun _ => hsp⟩
    unfold RuneStart
    simp only [Bool.not_eq_true', Bool.and_eq_false_iff, decide_eq_false_iff_not]
    omega
  · simp only [List.getD_cons_zero]
    exact ⟨RuneStart_of_lead hb, fun hlt => by omega⟩

theorem isSpaceEnc_length_pos {e : GoString} (h : isSpaceEnc e = true) : 1 ≤ e.length := by
  obtain ⟨hne, _, _⟩ := isSpaceEnc_iff.mp h
  exact List.length_pos.mpr hne

/-! ## Lemmas on the trimming loops -/

theorem lastIndexFuncLoop_none (z : GoString) :
    ∀ fuel i, i ≤ fuel → i ≤ z.length → lastIndexFuncLoop IsSpace false z fuel i = none →
      i = 0 ∨ ∃ e t, z.take i = e ++ t ∧ isSpaceEnc e = true := by
  intro fuel
  induction fuel with
  | zero => intro i hi _ _; exact Or.inl (by omega)
  | succ fuel ih =>
    intro i hi hlen h
    unfold lastIndexFuncLoop at h
    by_cases h0 : i = 0
    · exact Or.inl h0
    · right
      rw [if_neg h0] at h
      simp only at h
      by_cases hsp : IsSpace (DecodeLastRuneInString (z.take i)).1 = false
      · rw [if_pos hsp] at h
        cases h
      · rw [if_neg hsp] at h
        have hsp2 : IsSpace (DecodeLastRuneInString (z.take i)).1 = true := by simpa using hsp
        obtain ⟨t, e, hte, he, hel⟩ := decodeLast_space hsp2
        have hpos := isSpaceEnc_length_pos he
        have hti : t.length + e.length = i := by
          have := congrArg List.length hte
          rw [List.length_append, List.length_take] at this
          omega
        have htl : i - (DecodeLastRuneInString (z.take i)).2 = t.length := by omega
        have htake : z.take t.length = t := by
          have h2 : (z.take i).take t.length = t := by
            rw [hte, List.take_left' rfl]
          rw [List.take_take, Nat.min_eq_left (by omega)] at h2
          exact h2
        rw [htl] at h
        rcases ih _ (by omega) (by omega) h with h1 | ⟨e1, t1, h1, h2⟩
        · have : t = [] := List.length_eq_zero.mp h1
          refine ⟨e, [], ?_, he⟩
          rw [hte, this]
          simp
        · rw [htake] at h1
          refine ⟨e1, t1 ++ e, ?_, h2⟩
          rw [hte, h1, List.append_assoc]

theorem lastIndexFuncLoop_some (z : GoString) :
    ∀ fuel i j, i ≤ z.length → (i = z.length ∨ RuneStart (z.getD i 0) = true) →
      lastIndexFuncLoop IsSpace false z fuel i = some j →
      ∃ k, 0 < k ∧ k ≤ i ∧ j = k - (DecodeLastRuneInString (z.take k)).2
        ∧ IsSpace (DecodeLastRuneInString (z.take k)).1 = false
        ∧ (k = z.length ∨ RuneStart (z.getD k 0) = true) := by
  intro fuel
  induction fuel with
  | zero => intro i j _ _ h; cases h
  | succ fuel ih =>
    intro i j hlen hinv h
    unfold lastIndexFuncLoop at h
    by_cases h0 : i = 0
    · rw [if_pos h0] at h
      cases h
    · rw [if_neg h0] at h
      simp only at h
      by_cases hsp : IsSpace (DecodeLastRuneInString (z.take i)).1 = false
      · rw [if_pos hsp] at h
        simp only [Option.some.injEq] at h
        exact ⟨i, by omega, le_refl _, h.symm, hsp, hinv⟩
      · rw [if_neg hsp] at h
        have hsp2 : IsSpace (DecodeLastRuneInString (z.take i)).1 = true := by simpa using hsp
        obtain ⟨t, e, hte, he, hel⟩ := decodeLast_space hsp2
        have hpos := isSpaceEnc_length_pos he
        have hti : t.length + e.length = i := by
          have := congrArg List.length hte
          rw [List.length_append, List.length_take] at this
          omega
        have hget : z.getD (i - (DecodeLastRuneInString (z.take i)).2) 0 = e.getD 0 0 := by
          rw [← hel]
          have h1 : (z.take i).getD (i - e.length) 0 = z.getD (i - e.length) 0 :=
            getD_take (by omega) 0
          rw [← h1, hte]
          exact getD_append_at t e _ 0 (by omega)
        obtain ⟨k, hk1, hk2, hk3, hk4, hk5⟩ :=
          ih _ j (by omega) (Or.inr (by rw [hget]; exact (isSpaceEnc_head he).1)) h
        exact ⟨k, hk1, by omega, hk3, hk4, hk5⟩

/-- What `TrimRightFunc` returns with `unicode.IsSpace`: nothing, or a prefix whose
last rune is not white space. -/
theorem TrimRightFunc_result (z : GoString) :
    (lastIndexFunc z IsSpace false = none ∧ TrimRightFunc z IsSpace = [])
    ∨ ∃ k, 0 < k ∧ k ≤ z.length ∧ TrimRightFunc z IsSpace = z.take k
        ∧ IsSpace (DecodeLastRuneInString (z.take k)).1 = false := by
  unfold TrimRightFunc lastIndexFunc
  cases hl : lastIndexFuncLoop IsSpace false z z.length z.length with
  | none => exact Or.inl ⟨rfl, by simp⟩
  | some j =>
    right
    obtain ⟨k, hk0, hk1, hj, hsp, hinv⟩ :=
      lastIndexFuncLoop_some z _ _ j (le_refl _) (Or.inl rfl) hl
    refine ⟨k, hk0, hk1, ?_, hsp⟩
    have hne : z.take k ≠ [] := by
      intro h
      have := congrArg List.length h
      rw [List.length_take, List.length_nil] at this
      omega
    have hlen : (z.take k).length = k := by rw [List.length_take]; omega
    simp only
    rcases decodeLast_cases hne with h1 | ⟨h2, h3, h4⟩
    · -- width 1
      rw [h1] at hj
      by_cases hb : RuneSelf ≤ z.getD j 0
      · rw [if_pos hb]
        have hdrop : z.drop j = z.getD j 0 :: z.drop k := by
          have hjlt : j < z.length := by omega
          rw [List.drop_eq_getElem_cons hjlt, List.getD_eq_getElem _ _ hjlt]
          congr 2
          omega
        have hw : (DecodeRuneInString (z.drop j)).2 = 1 := by
          rw [hdrop]
          apply decode_width_one (by unfold RuneSelf at hb; omega)
          rcases hinv with hk | hk
          · left
            rw [hk, List.drop_length]
          · right
            have : (z.drop k).getD 0 0 = z.getD k 0 := by
              simp [List.getD_eq_getElem?_getD]
            rw [this]
            exact hk
        rw [hw]
        congr 1
        omega
      · rw [if_neg hb]
        congr 1
        omega
    · -- a whole multi-byte rune
      rw [hlen] at h3 h4
      have hjk : j + (DecodeLastRuneInString (z.take k)).2 = k := by omega
      have hdt : (z.take k).drop j = (z.drop j).take (DecodeLastRuneInString (z.take k)).2 := by
        rw [List.drop_take]
        congr 1
        omega
      have hdec : DecodeRuneInString (z.drop j)
          = ((DecodeLastRuneInString (z.take k)).1, (DecodeLastRuneInString (z.take k)).2) := by
        apply decode_of_take h2
        rw [← hdt, hj, h4]
      have hjlt : j < z.length := by omega
      have hlead : RuneSelf ≤ z.getD j 0 := by
        have hd2 := hdec
        rw [List.drop_eq_getElem_cons hjlt] at hd2
        obtain ⟨lo, hi, hf, _⟩ := decode_multi hd2 h2
        obtain ⟨_, _, _, hb, _⟩ := first_spec hf
        rw [List.getD_eq_getElem _ _ hjlt]
        unfold RuneSelf
        omega
      rw [if_pos hlead, hdec]
      congr 1

theorem indexFuncLoop_none :
    ∀ fuel i (x : GoString), x.length ≤ fuel → indexFuncLoop IsSpace false fuel i x = none →
      x = [] ∨ ∃ t e, x = t ++ e ∧ isSpaceEnc e = true := by
  intro fuel
  induction fuel with
  | zero =>
    intro i x hx _
    exact Or.inl (List.length_eq_zero.mp (by omega))
  | succ fuel ih =>
    intro i x hx h
    cases x with
    | nil => exact Or.inl rfl
    | cons c x1 =>
      right
      unfold indexFuncLoop at h
      simp only at h
      by_cases hsp : IsSpace (DecodeRuneInString (c :: x1)).1 = false
      · rw [if_pos hsp] at h
        cases h
      · rw [if_neg hsp] at h
        have hsp2 : IsSpace (DecodeRuneInString (c :: x1)).1 = true := by simpa using hsp
        have hpos := decode_width_pos (List.cons_ne_nil c x1)
        have hle := decode_width_le (c :: x1)
        rcases ih _ _ (by rw [List.length_drop]; simp only [List.length_cons] at hx ⊢; omega) h
          with h1 | ⟨t, e, h1, h2⟩
        · have hlen : (DecodeRuneInString (c :: x1)).2 = (c :: x1).length := by
            have := List.drop_eq_nil_iff.mp h1
            omega
          exact ⟨[], c :: x1, rfl, isSpaceEnc_iff.mpr ⟨List.cons_ne_nil _ _, hlen, hsp2⟩⟩
        · refine ⟨(c :: x1).take (DecodeRuneInString (c :: x1)).2 ++ t, e, ?_, h2⟩
          rw [List.append_assoc, ← h1, List.take_append_drop]

theorem indexFuncLoop_some :
    ∀ fuel i (x : GoString) j, indexFuncLoop IsSpace false fuel i x = some j →
      ∃ k, j = i + k ∧ k < x.length ∧ IsSpace (DecodeRuneInString (x.drop k)).1 = false := by
  intro fuel
  induction fuel with
  | zero => intro i x j h; cases h
  | succ fuel ih =>
    intro i x j h
    cases x with
    | nil => cases h
    | cons c x1 =>
      unfold indexFuncLoop at h
      simp only at h
      by_cases hsp : IsSpace (DecodeRuneInString (c :: x1)).1 = false
      · rw [if_pos hsp] at h
        simp only [Option.some.injEq] at h
        exact ⟨0, by omega, by simp, by simpa using hsp⟩
      · rw [if_neg hsp] at h
        have hpos := decode_width_pos (List.cons_ne_nil c x1)
        obtain ⟨k, hk1, hk2, hk3⟩ := ih _ _ _ h
        rw [List.length_drop] at hk2
        refine ⟨(DecodeRuneInString (c :: x1)).2 + k, by omega, by omega, ?_⟩
        rw [List.drop_drop] at hk3
        exact hk3

/-- When `TrimRightFunc` with `unicode.IsSpace` returns nothing, the string is empty or
begins with an encoded white-space rune. -/
theorem TrimRightFunc_nil {z : GoString} (h : TrimRightFunc z IsSpace = []) :
    z = [] ∨ ∃ e t, z = e ++ t ∧ isSpaceEnc e = true := by
  rcases TrimRightFunc_result z with ⟨hl, _⟩ | ⟨k, hk0, hk1, hk2, _⟩
  · unfold lastIndexFunc at hl
    rcases lastIndexFuncLoop_none z _ _ (le_refl _) (le_refl _) hl with h0 | ⟨e, t, h1, h2⟩
    · exact Or.inl (List.length_eq_zero.mp h0)
    · rw [List.take_length] at h1
      exact Or.inr ⟨e, t, h1, h2⟩
  · exfalso
    rw [h] at hk2
    have := congrArg List.length hk2
    rw [List.length_take, List.length_nil] at this
    omega

theorem asciiSpaceRun_le (s : GoString) : asciiSpaceRun s ≤ s.length := by
  induction s with
  | nil => simp [asciiSpaceRun]
  | cons c t ih =>
    unfold asciiSpaceRun
    split
    · simp only [List.length_cons]; omega
    · omega

theorem asciiSpaceRun_all {s : GoString} (h : asciiSpaceRun s = s.length) :
    ∀ b ∈ s, b < RuneSelf ∧ asciiSpace b = true := by
  induction s with
  | nil => intro b hb; cases hb
  | cons c t ih =>
    unfold asciiSpaceRun at h
    by_cases hc : c < RuneSelf ∧ asciiSpace c = true
    · rw [if_pos hc] at h
      simp only [List.length_cons, add_left_inj] at h
      intro b hb
      rcases List.mem_cons.mp hb with rfl | hb
      · exact hc
      · exact ih h b hb
    · rw [if_neg hc] at h
      simp at h

theorem asciiSpaceRun_stop {s : GoString} (h : asciiSpaceRun s < s.length) :
    ¬ (s.getD (asciiSpaceRun s) 0 < RuneSelf ∧ asciiSpace (s.getD (asciiSpaceRun s) 0) = true) := by
  induction s with
  | nil => simp at h
  | cons c t ih =>
    unfold asciiSpaceRun at h ⊢
    by_cases hc : c < RuneSelf ∧ asciiSpace c = true
    · rw [if_pos hc] at h ⊢
      simp only [List.length_cons, add_lt_add_iff_right] at h
      simp only [List.getD_cons_succ]
      exact ih h
    · rw [if_neg hc]
      simpa using hc

theorem getD_reverse {x : GoString} {i : Nat} (h : i < x.length) :
    x.reverse.getD i 0 = x.getD (x.length - 1 - i) 0 := by
  simp [List.getD_eq_getElem?_getD, List.getElem?_reverse h]

theorem isSpaceEnc_ascii {b : Nat} (h1 : b < RuneSelf) (h2 : asciiSpace b = true) :
    isSpaceEnc [b] = true := by
  have hb : b < 0x80 := h1
  rw [isSpaceEnc_iff, decode_ascii _ hb]
  exact ⟨by simp, rfl, by rw [IsSpace_ascii hb]; exact h2⟩

/-- The last byte of an encoded white-space rune is an ASCII white-space byte or
not ASCII at all. -/
theorem isSpaceEnc_last_byte {e : GoString} (h : isSpaceEnc e = true) (t : GoString) :
    RuneSelf ≤ (t ++ e).getD ((t ++ e).length - 1) 0
    ∨ asciiSpace ((t ++ e).getD ((t ++ e).length - 1) 0) = true := by
  rcases isSpaceEnc_cases h with ⟨b, rfl, hb, hsp⟩ | ⟨h2, b0, u, rfl, _, hd⟩
  · right
    rw [getD_append_at t [b] _ 0 (by simp)]
    exact hsp
  · left
    exact (lastRuneStart_of_whole t hd h2).2

/-- What the second loop of `TrimSpace` returns does not end with an encoded
white-space rune. -/
theorem trimSpaceStop_no_space {x t e : GoString} (h : trimSpaceStop x = t ++ e)
    (he : isSpaceEnc e = true) : False := by
  have hpos := isSpaceEnc_length_pos he
  unfold trimSpaceStop at h
  simp only at h
  have hk := asciiSpaceRun_le x.reverse
  rw [List.length_reverse] at hk
  by_cases hc : x.take (x.length - asciiSpaceRun x.reverse) ≠ []
      ∧ RuneSelf ≤ (x.take (x.length - asciiSpaceRun x.reverse)).getD
          ((x.take (x.length - asciiSpaceRun x.reverse)).length - 1) 0
  · rw [if_pos hc] at h
    rcases TrimRightFunc_result (x.take (x.length - asciiSpaceRun x.reverse))
      with ⟨_, h0⟩ | ⟨k, _, _, hk2, hk3⟩
    · rw [h0] at h
      have := congrArg List.length h
      rw [List.length_append, List.length_nil] at this
      omega
    · rw [← hk2, h, isSpaceEnc_last he t] at hk3
      rw [(isSpaceEnc_iff.mp he).2.2] at hk3
      cases hk3
  · rw [if_neg hc] at h
    have hlen : (x.take (x.length - asciiSpaceRun x.reverse)).length
        = x.length - asciiSpaceRun x.reverse := by
      rw [List.length_take]
      omega
    have hne : x.take (x.length - asciiSpaceRun x.reverse) ≠ [] := by
      rw [h]
      intro hnil
      have := congrArg List.length hnil
      rw [List.length_append, List.length_nil] at this
      omega
    have hlt : asciiSpaceRun x.reverse < x.length := by
      have := List.length_pos.mpr hne
      omega
    have hlast : (x.take (x.length - asciiSpaceRun x.reverse)).getD
        ((x.take (x.length - asciiSpaceRun x.reverse)).length - 1) 0
          = x.reverse.getD (asciiSpaceRun x.reverse) 0 := by
      rw [hlen, getD_take (by omega), getD_reverse hlt]
      congr 1
      omega
    have hstop := asciiSpaceRun_stop (s := x.reverse) (by rw [List.length_reverse]; exact hlt)
    have hself : ¬ RuneSelf ≤ (x.take (x.length - asciiSpaceRun x.reverse)).getD
          ((x.take (x.length - asciiSpaceRun x.reverse)).length - 1) 0 := fun hge => hc ⟨hne, hge⟩
    rw [hlast] at hself
    have hb := isSpaceEnc_last_byte he t
    rw [← h, hlast] at hb
    rcases hb with hb | hb
    · exact hself hb
    · exact hstop ⟨by omega, hb⟩

/-- What `strings.TrimSpace` returns does not end with an encoded white-space rune. -/
theorem TrimSpace_no_trailing_space {s t e : GoString} (h : TrimSpace s = t ++ e)
    (he : isSpaceEnc e = true) : False := by
  have hpos := isSpaceEnc_length_pos he
  unfold TrimSpace at h
  simp only at h
  split at h
  · unfold TrimFunc at h
    rcases TrimRightFunc_result (TrimLeftFunc (s.drop (asciiSpaceRun s)) IsSpace)
      with ⟨_, h0⟩ | ⟨k, _, _, hk2, hk3⟩
    · rw [h0] at h
      have := congrArg List.length h
      rw [List.length_append, List.length_nil] at this
      omega
    · rw [← hk2, h, isSpaceEnc_last he t] at hk3
      rw [(isSpaceEnc_iff.mp he).2.2] at hk3
      cases hk3
  · exact trimSpaceStop_no_space h he

/-- When `strings.TrimSpace` returns the empty string, its argument is empty or ends
with an encoded white-space rune. -/
theorem TrimSpace_nil {s : GoString} (h : TrimSpace s = []) :
    s = [] ∨ ∃ t e, s = t ++ e ∧ isSpaceEnc e = true := by
  have hrun := asciiSpaceRun_le s
  unfold TrimSpace at h
  simp only at h
  by_cases hc : asciiSpaceRun s < s.length ∧ RuneSelf ≤ s.getD (asciiSpaceRun s) 0
  · rw [if_pos hc] at h
    right
    unfold TrimFunc TrimLeftFunc indexFunc at h
    cases hi : indexFuncLoop IsSpace false (s.drop (asciiSpaceRun s)).length 0
        (s.drop (asciiSpaceRun s)) with
    | none =>
      rcases indexFuncLoop_none _ _ _ (le_refl _) hi with h1 | ⟨t, e, h1, h2⟩
      · have := List.drop_eq_nil_iff.mp h1
        omega
      · refine ⟨s.take (asciiSpaceRun s) ++ t, e, ?_, h2⟩
        rw [List.append_assoc, ← h1, List.take_append_drop]
    | some j =>
      exfalso
      rw [hi] at h
      simp only at h
      obtain ⟨k, hk1, hk2, hk3⟩ := indexFuncLoop_some _ _ _ _ hi
      have hjk : j = k := by omega
      subst hjk
      rcases TrimRightFunc_nil h with h1 | ⟨e, t, h1, h2⟩
      · have := List.drop_eq_nil_iff.mp h1
        omega
      · rw [h1, isSpaceEnc_append h2, (isSpaceEnc_iff.mp h2).2.2] at hk3
        cases hk3
  · rw [if_neg hc] at h
    by_cases hlen : asciiSpaceRun s < s.length
    · exfalso
      have hx0 : ¬ RuneSelf ≤ s.getD (asciiSpaceRun s) 0 := fun hge => hc ⟨hlen, hge⟩
      have hstop := asciiSpaceRun_stop hlen
      have hns : asciiSpace (s.getD (asciiSpaceRun s) 0) = false := by
        cases hsp : asciiSpace (s.getD (asciiSpaceRun s) 0) with
        | false => rfl
        | true => exact absurd ⟨by omega, hsp⟩ hstop
      generalize hx : s.drop (asciiSpaceRun s) = x at h
      have hxlen : 0 < x.length := by rw [← hx, List.length_drop]; omega
      have hxne : x ≠ [] := List.length_pos.mp hxlen
      have hx0' : x.getD 0 0 = s.getD (asciiSpaceRun s) 0 := by
        rw [← hx]
        simp [List.getD_eq_getElem?_getD]
      have hk := asciiSpaceRun_le x.reverse
      rw [List.length_reverse] at hk
      have hklt : asciiSpaceRun x.reverse < x.length := by
        by_contra hge
        have hall := asciiSpaceRun_all (s := x.reverse) (by rw [List.length_reverse]; omega)
        have hmem : x.getD 0 0 ∈ x.reverse := by
          rw [List.mem_reverse, List.getD_eq_getElem _ _ hxlen]
          exact List.getElem_mem _
        have := (hall _ hmem).2
        rw [hx0', hns] at this
        cases this
      unfold trimSpaceStop at h
      simp only at h
      have hyne : x.take (x.length - asciiSpaceRun x.reverse) ≠ [] := by
        intro hnil
        have := congrArg List.length hnil
        rw [List.length_take, List.length_nil] at this
        omega
      have hy0 : (x.take (x.length - asciiSpaceRun x.reverse)).getD 0 0 = x.getD 0 0 :=
        getD_take (by omega) 0
      split at h
      · rcases TrimRightFunc_nil h with h1 | ⟨e, t, h1, h2⟩
        · exact hyne h1
        · have hhead := isSpaceEnc_head h2
          have he0 : e.getD 0 0 = x.getD 0 0 := by
            rw [← hy0, h1]
            have := isSpaceEnc_length_pos h2
            cases e with
            | nil => simp at this
            | cons c u => simp
          rw [he0, hx0'] at hhead
          have := hhead.2 (by unfold RuneSelf at hx0; omega)
          rw [hns] at this
          cases this
      · exact hyne h
    · by_cases hs : s = []
      · exact Or.inl hs
      · right
        have heq : asciiSpaceRun s = s.length := by omega
        have hall := asciiSpaceRun_all heq
        have hl : 0 < s.length := List.length_pos.mpr hs
        have hmem : s.getD (s.length - 1) 0 ∈ s := by
          rw [List.getD_eq_getElem _ _ (by omega)]
          exact List.getElem_mem _
        exact ⟨_, _, take_append_last hs, isSpaceEnc_ascii (hall _ hmem).1 (hall _ hmem).2⟩

theorem lowerByte_space {c : Nat} (h : lowerByte c = 32) : c = 32 := by
  unfold lowerByte at h
  split at h <;> omega

/-- The text after the `bearer ` scheme of a trimmed header is not white space only:
trimming it leaves something. -/
theorem bearer_text_nonempty (header : GoString)
    (h : HasPrefix (ToLower (TrimSpace header)) bearerScheme = true) :
    TrimSpace ((TrimSpace header).drop 7) ≠ [] := by
  generalize ha : TrimSpace header = a at h
  unfold HasPrefix ToLower bearerScheme at h
  simp only [List.length_cons, List.length_nil, Bool.and_eq_true, decide_eq_true_eq,
    List.length_map] at h
  obtain ⟨hp, hl⟩ := h
  match a, hl, hp with
  | c0 :: c1 :: c2 :: c3 :: c4 :: c5 :: c6 :: rest, _, hp =>
    simp only [List.map_cons, List.take_succ_cons, List.take_zero, List.cons.injEq] at hp
    have h6 : c6 = 32 := lowerByte_space hp.2.2.2.2.2.2.1
    subst h6
    simp only [List.drop_succ_cons, List.drop_zero]
    intro hnil
    rcases TrimSpace_nil hnil with h1 | ⟨t, e, h1, h2⟩
    · subst h1
      exact TrimSpace_no_trailing_space (t := [c0, c1, c2, c3, c4, c5]) (e := [32]) ha (by decide)
    · subst h1
      exact TrimSpace_no_trailing_space (t := c0 :: c1 :: c2 :: c3 :: c4 :: c5 :: 32 :: t)
        (e := e) ha h2

theorem firstNonEmpty_three (x y z : GoString) :
    firstNonEmpty [x, y, z] = (if x ≠ [] then x else if y ≠ [] then y else z)
    ∧ (firstNonEmpty [x, y, z] = [] ↔ x = [] ∧ y = [] ∧ z = []) := by
  cases x <;> cases y <;> cases z <;> simp [firstNonEmpty]

/-- C9. `extractAPIToken` returns the first non-empty candidate in the order Bearer
text of the Authorization header, trimmed `X-API-Token` header, trimmed `api_token`
query parameter; it returns the empty string only when all three are absent or empty;
and a Bearer-form Authorization header always decides the result, which is then not
empty. -/
theorem extractAPIToken_spec (c : Request) :
    extractAPIToken c = firstNonEmpty (tokenCandidates c)
    ∧ (extractAPIToken c = [] ↔ ∀ x ∈ tokenCandidates c, x = [])
    ∧ (isBearerForm c = true → extractAPIToken c = bearerText c ∧ extractAPIToken c ≠ []) := by
  have hb : isBearerForm c = true → bearerText c ≠ [] := fun h =>
    bearer_text_nonempty c.Authorization h
  have h1 : extractAPIToken c = firstNonEmpty (tokenCandidates c) := by
    unfold tokenCandidates
    rw [(firstNonEmpty_three _ _ _).1]
    unfold extractAPIToken
    simp only
    by_cases hf : isBearerForm c = true
    · have hf2 : HasPrefix (ToLower (TrimSpace c.Authorization)) bearerScheme = true := hf
      rw [if_pos hf2, if_pos hf, if_pos (hb hf)]
      rfl
    · have hf2 : ¬ HasPrefix (ToLower (TrimSpace c.Authorization)) bearerScheme = true := hf
      rw [if_neg hf2, if_neg hf]
      simp only [ne_eq, not_true_eq_false, if_false]
  refine ⟨h1, ?_, ?_⟩
  · rw [h1]
    unfold tokenCandidates
    rw [(firstNonEmpty_three _ _ _).2]
    simp only [List.mem_cons, List.mem_singleton, List.not_mem_nil, or_false, forall_eq_or_imp,
      forall_eq]
  · intro hf
    have hf2 : HasPrefix (ToLower (TrimSpace c.Authorization)) bearerScheme = true := hf
    have : extractAPIToken c = bearerText c := by
      unfold extractAPIToken
      simp only
      rw [if_pos hf2]
      rfl
    exact ⟨this, by rw [this]; exact hb hf⟩

/-- C9, at a request with a Bearer header in mixed case and an `X-API-Token` header:
the Bearer text is returned. -/
theorem extractAPIToken_spec_witness :
    isBearerForm exampleBearerRequest = true
    ∧ extractAPIToken exampleBearerRequest = [97, 98, 99] :=
  ⟨by decide,
    ((extractAPIToken_spec exampleBearerRequest).2.2 (by decide)).1.trans (by decide)⟩

/-! ## The gate with a verified identity -/

theorem VerifyToken_empty (check : GoString → GoString → Bool) (rows : List APIUser)
    (lookupFault touchFault : Option GoError) (now : Int) :
    VerifyToken check rows lookupFault touchFault now []
      = (.error GoError.ErrInvalidAPIToken, rows) := by
  have : TrimSpace [] = [] := by decide
  unfold VerifyToken
  simp [this, apiTokenPrefixLength]

/-- C11. For a request whose token verifies to an identity: when the registry's
`allow(identity.Id, effective quota)` returns false the gate aborts with status 429
and the rate-limit body, which is not the 404 outcome without a body, stores nothing
in the context and does not call `c.Next()`; when `allow` returns true the gate
stores the identity (and the synthesized user, whose id is the 64-bit sum
`apiVirtualUserIDOffset + apiUser.Id`, the plain sum as long as that fits 64 bits)
and calls `c.Next()`. -/
theorem apiAuthHandler_verified (env : Env) (st : GateState) (c : Request) (apiUser : APIUser)
    (rows1 : List APIUser)
    (hv : VerifyToken env.check st.rows env.lookupFault env.touchFault env.now
      (extractAPIToken c) = (.ok apiUser, rows1)) :
    ((allow st.limiterStore env.allowNow apiUser.Id
          (EffectiveRateLimit env.defaultRateLimit (some apiUser))).1 = false →
        (apiAuthHandler env st c).1 = Outcome.abort 429 (some rateLimitBody))
    ∧ ((allow st.limiterStore env.allowNow apiUser.Id
          (EffectiveRateLimit env.defaultRateLimit (some apiUser))).1 = true →
        (apiAuthHandler env st c).1
          = Outcome.next (some apiUser)
              (some { Id := wrapInt64 (apiVirtualUserIDOffset + apiUser.Id),
                      Username := apiNameTag ++ apiUser.Name }))
    ∧ Outcome.abort 429 (some rateLimitBody) ≠ Outcome.abort 404 none
    ∧ (-2 ^ 63 ≤ apiVirtualUserIDOffset + apiUser.Id →
        apiVirtualUserIDOffset + apiUser.Id < 2 ^ 63 →
        wrapInt64 (apiVirtualUserIDOffset + apiUser.Id) = apiVirtualUserIDOffset + apiUser.Id) := by
  have hne : extractAPIToken c ≠ [] := by
    intro h0
    rw [h0, VerifyToken_empty] at hv
    cases hv
  refine ⟨?_, ?_, by decide, ?_⟩
  · intro ha
    unfold apiAuthHandler
    simp only [hne, false_and, if_false, hv, ha]
    rfl
  · intro ha
    unfold apiAuthHandler
    simp only [hne, false_and, if_false, hv, ha]
    rfl
  · intro hlo hhi
    unfold wrapInt64
    omega

/-! ## Independence of the identities in the registry -/

theorem rebuildLimiter_other (s : apiRateLimiterStore) {a b : Int} (q : Int) (hab : a ≠ b) :
    (rebuildLimiter s a q).2.limiters b = s.limiters b
      ∧ (rebuildLimiter s a q).2.limits b = s.limits b := by
  unfold rebuildLimiter
  simp [Function.update_noteq (Ne.symm hab)]

theorem getLimiter_other (s : apiRateLimiterStore) {a b : Int} (q : Int) (hab : a ≠ b) :
    (getLimiter s a q).2.limiters b = s.limiters b
      ∧ (getLimiter s a q).2.limits b = s.limits b := by
  unfold getLimiter
  simp only
  split
  · split
    · exact ⟨rfl, rfl⟩
    · exact rebuildLimiter_other s q hab
  · exact rebuildLimiter_other s q hab

/-- A call for one identity leaves the entry of every other identity as it was. -/
theorem allow_other (s : apiRateLimiterStore) (t : Int) {a b : Int} (q : Int) (hab : a ≠ b) :
    (allow s t a q).2.limiters b = s.limiters b ∧ (allow s t a q).2.limits b = s.limits b := by
  by_cases hq : q ≤ 0
  · unfold allow
    rw [if_pos hq]
    exact ⟨rfl, rfl⟩
  · rw [allow_eq (by omega)]
    simp only [Function.update_noteq (Ne.symm hab)]
    exact getLimiter_other s q hab

theorem getLimiter_congr {s1 s2 : apiRateLimiterStore} {b : Int} (q : Int)
    (h1 : s1.limiters b = s2.limiters b) (h2 : s1.limits b = s2.limits b) :
    (getLimiter s1 b q).1 = (getLimiter s2 b q).1
      ∧ (getLimiter s1 b q).2.limits b = (getLimiter s2 b q).2.limits b := by
  unfold getLimiter
  simp only [h1, h2]
  cases s2.limiters b with
  | none => simp [rebuildLimiter]
  | some L =>
    simp only
    split
    · exact ⟨rfl, h2⟩
    · simp [rebuildLimiter]

/-- The result of a call for an identity, and the entry it leaves for that identity,
depend only on the entry of that identity. -/
theorem allow_congr {s1 s2 : apiRateLimiterStore} {b : Int} (t q : Int)
    (h1 : s1.limiters b = s2.limiters b) (h2 : s1.limits b = s2.limits b) :
    (allow s1 t b q).1 = (allow s2 t b q).1
      ∧ (allow s1 t b q).2.limiters b = (allow s2 t b q).2.limiters b
      ∧ (allow s1 t b q).2.limits b = (allow s2 t b q).2.limits b := by
  by_cases hq : q ≤ 0
  · unfold allow
    rw [if_pos hq, if_pos hq]
    exact ⟨rfl, h1, h2⟩
  · obtain ⟨hg1, hg2⟩ := getLimiter_congr q h1 h2
    rw [allow_eq (by omega), allow_eq (by omega)]
    simp only [Function.update_same, hg1]
    exact ⟨trivial, trivial, hg2⟩

theorem allowSeq_congr {b : Int} (q : Int) (times : List Int) :
    ∀ (s1 s2 : apiRateLimiterStore), s1.limiters b = s2.limiters b → s1.limits b = s2.limits b →
      (allowSeq s1 b q times).1 = (allowSeq s2 b q times).1 := by
  induction times with
  | nil => intro s1 s2 _ _; rfl
  | cons t rest ih =>
    intro s1 s2 h1 h2
    obtain ⟨hr, hl, hq⟩ := allow_congr t q h1 h2
    rw [allowSeq_cons, allowSeq_cons]
    dsimp only
    rw [hr, ih _ _ hl hq]

/-- C14. For distinct identities `a` and `b`, a call `allow(a, qa)` leaves the entry
of `b` unchanged, both its recorded quota and its limiter with the bucket state, and
every later call `allow(b, qb)`, and every sequence of them, returns what it would
have returned without the call for `a`. -/
theorem allow_frame (s : apiRateLimiterStore) (t a b qa : Int) (hab : a ≠ b) :
    (allow s t a qa).2.limiters b = s.limiters b
    ∧ (allow s t a qa).2.limits b = s.limits b
    ∧ (∀ qb t1, (allow (allow s t a qa).2 t1 b qb).1 = (allow s t1 b qb).1)
    ∧ ∀ qb times, (allowSeq (allow s t a qa).2 b qb times).1 = (allowSeq s b qb times).1 := by
  obtain ⟨h1, h2⟩ := allow_other s t qa hab
  exact ⟨h1, h2, fun qb t1 => (allow_congr t1 qb h1 h2).1,
    fun qb times => allowSeq_congr qb times _ _ h1 h2⟩

/-- C11, at two concrete gates: with a new registry the request of `exampleUser` is
passed on with the identity attached, with the bucket used up it is answered 429. -/
theorem apiAuthHandler_verified_witness :
    (VerifyToken exampleEnv.check exampleState.rows exampleEnv.lookupFault exampleEnv.touchFault
        exampleEnv.now (extractAPIToken exampleTokenRequest)).1 = .ok exampleUser
    ∧ (apiAuthHandler exampleEnv exampleState exampleTokenRequest).1
        = Outcome.next (some exampleUser)
            (some { Id := 1000001, Username := [97, 112, 105, 58, 97] })
    ∧ (apiAuthHandler exampleEnv exampleStateExhausted exampleTokenRequest).1
        = Outcome.abort 429 (some rateLimitBody) :=
  ⟨by decide,
    (apiAuthHandler_verified exampleEnv exampleState exampleTokenRequest exampleUser _
      (Prod.ext (by decide) rfl)).2.1 (by decide!),
    (apiAuthHandler_verified exampleEnv exampleStateExhausted exampleTokenRequest exampleUser _
      (Prod.ext (by decide) rfl)).1 (by decide!)⟩

/-- C14, at a registry in which identity 2 has used one of its two tokens: a call for
identity 1 changes nothing for identity 2. -/
theorem allow_frame_witness :
    (1 : Int) ≠ 2
    ∧ (allowSeq (allow (allow newAPIRateLimiterStore 0 2 2).2 0 1 5).2 2 2 [0, 0]).1
        = (allowSeq (allow newAPIRateLimiterStore 0 2 2).2 2 2 [0, 0]).1
    ∧ (allowSeq (allow newAPIRateLimiterStore 0 2 2).2 2 2 [0, 0]).1 = [true, false] :=
  ⟨by decide,
    (allow_frame (allow newAPIRateLimiterStore 0 2 2).2 0 1 2 5 (by decide)).2.2.2 2 [0, 0],
    by decide!⟩

/-! ## Malformed tokens and the statements sent to the store -/

/-- C12. A presented string whose trimmed form is shorter than 8 bytes is answered
`ErrInvalidAPIToken` with no statement sent to the store and the table as it was.
For every other string the slice `token[:8]` is in bounds, so that `VerifyToken`
never panics; its result is the one of the untraced `VerifyToken`. -/
theorem VerifyToken_malformed (check : GoString → GoString → Bool) (rows : List APIUser)
    (lookupFault touchFault : Option GoError) (now : Int) (token : GoString) :
    ((TrimSpace token).length < 8 →
        VerifyTokenTraced check rows lookupFault touchFault now token
          = some ((.error GoError.ErrInvalidAPIToken, rows), []))
    ∧ (8 ≤ (TrimSpace token).length →
        sliceTo (TrimSpace token) apiTokenPrefixLength = some ((TrimSpace token).take 8))
    ∧ ∃ log, VerifyTokenTraced check rows lookupFault touchFault now token
        = some (VerifyToken check rows lookupFault touchFault now token, log) := by
  refine ⟨?_, ?_, ?_⟩
  · intro h
    unfold VerifyTokenTraced
    simp only [apiTokenPrefixLength, h, if_true]
  · intro h
    unfold sliceTo apiTokenPrefixLength
    rw [if_pos h]
  · unfold VerifyTokenTraced VerifyToken
    simp only
    by_cases h : (TrimSpace token).length < apiTokenPrefixLength
    · rw [if_pos h, if_pos h]
      exact ⟨[], rfl⟩
    · rw [if_neg h, if_neg h]
      have hs : sliceTo (TrimSpace token) apiTokenPrefixLength
          = some ((TrimSpace token).take apiTokenPrefixLength) := by
        unfold sliceTo
        rw [if_pos (by omega)]
      rw [hs]
      simp only
      cases dbFirstEnabledByPrefix rows lookupFault ((TrimSpace token).take apiTokenPrefixLength) with
      | error e => exact ⟨_, rfl⟩
      | ok u =>
        simp only
        split
        · exact ⟨_, rfl⟩
        · exact ⟨_, rfl⟩

/-- C12, at the string `"  abc \n"`: trimmed it has 3 bytes, and nothing is sent to
the store. -/
theorem VerifyToken_malformed_witness :
    (TrimSpace [32, 32, 97, 98, 99, 32, 10]).length < 8
    ∧ VerifyTokenTraced exampleCheck [exampleUser] none none 7 [32, 32, 97, 98, 99, 32, 10]
        = some ((.error GoError.ErrInvalidAPIToken, [exampleUser]), []) :=
  ⟨by decide,
    (VerifyToken_malformed exampleCheck [exampleUser] none none 7 [32, 32, 97, 98, 99, 32, 10]).1
      (by decide)⟩

/-! ## The limiter that `getLimiter` builds -/

/-- C13, amended. For a quota `0 < q ≤ 60000000000` the limiter that `getLimiter`
builds has capacity `q` and a full bucket of `q` tokens, so that `q` calls at one
instant are all allowed, and its limit is `rate.Every` of `time.Minute / q`, the
quotient rounded down to a whole nanosecond: the `float64` nearest to one over that
interval in seconds. `q` times the interval is 60 s exactly when `q` divides
60000000000, and falls short of it by less than `q` nanoseconds otherwise. -/
theorem rebuildLimiter_rate (s : apiRateLimiterStore) (id q : Int) (hpos : 0 < q)
    (hq : q ≤ Minute) :
    ((s.limiters id = none ∨ (s.limits id).getD 0 ≠ q) →
        (getLimiter s id q).1 = (rebuildLimiter s id q).1
        ∧ ∀ t, (allowSeq s id q (List.replicate q.toNat t)).1 = List.replicate q.toNat true)
    ∧ (rebuildLimiter s id q).1
        = { limit := Every (Minute / q), burst := q, tokens := F64.ofInt q, last := 0 }
    ∧ F64.ofInt q = q * unit64
    ∧ Every (Minute / q) = Limit.finite (F64.div (F64.ofInt 1) (seconds (Minute / q)))
    ∧ 1 ≤ Minute / q
    ∧ q * (Minute / q) ≤ Minute ∧ Minute < q * (Minute / q) + q
    ∧ (q ∣ Minute ↔ q * (Minute / q) = Minute) := by
  have hM : (0 : Int) ≤ Minute := by unfold Minute Second; omega
  obtain ⟨h1, _, hE⟩ := Every_small hpos hq
  have hdiv : Int.tdiv Minute q = Minute / q := Int.tdiv_eq_ediv hM (le_of_lt hpos)
  rw [hdiv] at h1 hE
  have hmod := Int.emod_add_ediv Minute q
  have hmod0 := Int.emod_nonneg Minute (ne_of_gt hpos)
  have hmodlt := Int.emod_lt_of_pos Minute hpos
  refine ⟨fun h => ⟨by rw [getLimiter_fresh h], fun t => (allowSeq_full_bucket t hpos h).1⟩,
    ?_, F64.ofInt_int (le_of_lt hpos) (lt_of_le_of_lt hq Minute_lt), hE, h1, by omega, by omega, ?_⟩
  · unfold rebuildLimiter NewLimiter
    simp only [hdiv]
  · rw [Int.dvd_iff_emod_eq_zero]
    constructor <;> intro h <;> omega

/-- C13 as stated fails at the quota 7: the limiter is built with the interval
8571428571 ns, and 7 times that is 59999999997 ns, not 60 s; its limit is not the
`float64` nearest to 7/60 per second. It fails at the quota 60 as well, where the
interval is one second: a bucket emptied at time 0 allows a call at 999999999 ns,
because the wait for the missing part of a token is cut to whole nanoseconds. -/
theorem rebuildLimiter_rate_counterexample :
    (getLimiter newAPIRateLimiterStore 1 7).1.limit = Every 8571428571
    ∧ (7 : Int) * 8571428571 ≠ Minute
    ∧ ((8571428571 : Int) : ℚ) ≠ ((60000000000 : Int) : ℚ) / ((7 : Int) : ℚ)
    ∧ Every 8571428571 ≠ Limit.finite (F64.div (F64.ofInt 7) (F64.ofInt 60))
    ∧ (getLimiter newAPIRateLimiterStore 1 60).1.limit = Every Second
    ∧ (reserveN { limit := Every Second, burst := 60, tokens := 0, last := 0 }
          999999999 1).1 = true := by
  refine ⟨by decide!, by decide, ?_, by decide!, by decide!, by decide!⟩
  norm_num

/-- C13, amended, at the quota 120 of the installer's default: the interval is half
a second and the limit is 2 tokens per second. -/
theorem rebuildLimiter_rate_witness :
    ((0 : Int) < 120 ∧ (120 : Int) ≤ Minute)
    ∧ (rebuildLimiter newAPIRateLimiterStore 1 120).1
        = { limit := Limit.finite (F64.ofInt 2), burst := 120, tokens := F64.ofInt 120,
            last := 0 } :=
  ⟨by decide,
    (rebuildLimiter_rate newAPIRateLimiterStore 1 120 (by decide) (by decide)).2.1.trans
      (by decide!)⟩

end ApiHardener
